import Mathlib

/-!
Verification of the vader-data-stream time-series store

Shallow embedding of `src/vader-data-stream` (TypeScript):
* `src/store/TimeSeriesStore.ts` — the bucketed in-memory store,
* `src/ingestion/S3Ingester.ts`  — loader validation and the ingestion coordinator,
* `src/consumer/DataConsumer.ts` — the validated query façade.

Timestamps are integer milliseconds (spec §3: "timestamp (integer milliseconds
since epoch)"), modelled as `Int`.  `price` and `size` are finite JavaScript
doubles whose values are rationals; the store never computes with them, so they
are carried as `Rat` payload.  JavaScript `Map<number, TradeEntry[]>` is
modelled as a function `Int → Option (List TradeEntry)` (`none` = key absent).
The `EventEmitter` bus is modelled by having each mutating operation return the
list of events it emits; the emitter broadcasts each emitted event to every
subscriber of the matching topic.
-/

inductive Side where
  | buy
  | sell
deriving DecidableEq, Repr, Inhabited

structure TradeEntry where
  timestamp : Int
  price : Rat
  size : Rat
  side : Side
  source : String
deriving DecidableEq, Repr, Inhabited

/-- Events emitted by the store bus: the entry broadcast and the batch broadcast. -/
inductive StoreEvent where
  | entry (e : TradeEntry)
  | batch (es : List TradeEntry)
deriving DecidableEq, Repr

/-- Constant `const BUCKET_SIZE_MS = 60000` (TimeSeriesStore.ts line 13). -/
def BUCKET_SIZE_MS : Int := 60000

/-- The mutable fields of `class TimeSeriesStore` (lines 20–23). -/
structure TimeSeriesStore where
  buckets : Int → Option (List TradeEntry)
  totalCount : Nat
  minTimestamp : Option Int
  maxTimestamp : Option Int

namespace TimeSeriesStore

/-- A freshly constructed store. -/
def emptyStore : TimeSeriesStore :=
  { buckets := fun _ => none, totalCount := 0, minTimestamp := none, maxTimestamp := none }

/-- Function `getBucketKey` (lines 32–34): `Math.floor(timestamp / BUCKET_SIZE_MS)`;
for an integer timestamp this is floor division. -/
def getBucketKey (timestamp : Int) : Int :=
  timestamp.fdiv BUCKET_SIZE_MS

/-- Map update `this.buckets.set(key, l)` on the function model of the `Map`. -/
def setBucket (m : Int → Option (List TradeEntry)) (key : Int) (l : List TradeEntry) :
    Int → Option (List TradeEntry) :=
  fun j => if j = key then some l else m j

/-- The shared binary-search loop body of `findInsertIndex` (lines 40–54) and
`findFirstAtOrAfter` (lines 82–96): the two source functions have the identical
`low/high` loop, differing only in whether the probe value is `entry.timestamp`
or a raw timestamp.  `mid` is always in range when `high ≤ l.length`, so the
`getD` default is never read on reachable calls.
The `while (low < high)` loop is modelled with an explicit fuel argument (first
`Nat`) so that the definition is structurally recursive and computes by kernel
reduction; each iteration shrinks `high - low` by at least one, so the fuel
`l.length + 1` supplied by the two wrappers can never run out (the `0` branch
is unreachable from them, which the lemmas below make precise). -/
def lbAux (l : List TradeEntry) (ts : Int) : Nat → Nat → Nat → Nat
  | 0, low, _high => low
  | fuel + 1, low, high =>
    if low < high then
      let mid := (low + high) / 2
      if (l.getD mid default).timestamp < ts then
        lbAux l ts fuel (mid + 1) high
      else
        lbAux l ts fuel low mid
    else
      low

/-- Function `findInsertIndex(bucket, entry)` (lines 40–54). -/
def findInsertIndex (bucket : List TradeEntry) (entry : TradeEntry) : Nat :=
  lbAux bucket entry.timestamp (bucket.length + 1) 0 bucket.length

/-- Function `findFirstAtOrAfter(bucket, timestamp)` (lines 82–96). -/
def findFirstAtOrAfter (bucket : List TradeEntry) (timestamp : Int) : Nat :=
  lbAux bucket timestamp (bucket.length + 1) 0 bucket.length

/-- The loop of `findIndexAtTime` (lines 60–76).  `low`/`high` are JavaScript
numbers that may go negative (`high = bucket.length - 1` on an empty bucket,
`high = mid - 1`), so they are modelled as `Int`; `mid = Math.floor((low+high)/2)`
is floor division.  Returns `-1` when the timestamp is absent.  As with `lbAux`
the `while (low <= high)` loop carries fuel `l.length + 1`, which cannot run
out: each iteration shrinks `high + 1 - low` by at least one. -/
def fiatAux (l : List TradeEntry) (ts : Int) : Nat → Int → Int → Int
  | 0, _low, _high => -1
  | fuel + 1, low, high =>
    if low ≤ high then
      let mid := (low + high).fdiv 2
      let e := l.getD mid.toNat default
      if e.timestamp = ts then mid
      else if e.timestamp < ts then fiatAux l ts fuel (mid + 1) high
      else fiatAux l ts fuel low (mid - 1)
    else
      -1

/-- Function `findIndexAtTime(bucket, timestamp)` (lines 60–76). -/
def findIndexAtTime (bucket : List TradeEntry) (timestamp : Int) : Int :=
  fiatAux bucket timestamp (bucket.length + 1) 0 ((bucket.length : Int) - 1)

/-- Splice step `bucket.splice(insertIndex, 0, entry)`. -/
def spliceInsert (l : List TradeEntry) (i : Nat) (e : TradeEntry) : List TradeEntry :=
  l.take i ++ e :: l.drop i

/-- The `minTimestamp` update of `insert`/`insertBatch` (lines 119–121, 151–153). -/
def minUpdate (cur : Option Int) (ts : Int) : Option Int :=
  match cur with
  | none => some ts
  | some v => if ts < v then some ts else some v

/-- The `maxTimestamp` update of `insert`/`insertBatch` (lines 122–124, 154–156). -/
def maxUpdate (cur : Option Int) (ts : Int) : Option Int :=
  match cur with
  | none => some ts
  | some v => if ts > v then some ts else some v

/-- Function `insert(entry)` (lines 103–128): route to the bucket (created empty when
absent), splice at the binary-searched index, bump the aggregates and emit one
`entry` event. -/
def insert (s : TimeSeriesStore) (entry : TradeEntry) : TimeSeriesStore × List StoreEvent :=
  let bucketKey := getBucketKey entry.timestamp
  let bucket := (s.buckets bucketKey).getD []
  let insertIndex := findInsertIndex bucket entry
  ({ buckets := setBucket s.buckets bucketKey (spliceInsert bucket insertIndex entry),
     totalCount := s.totalCount + 1,
     minTimestamp := minUpdate s.minTimestamp entry.timestamp,
     maxTimestamp := maxUpdate s.maxTimestamp entry.timestamp },
   [StoreEvent.entry entry])

/-- State component of `insert`. -/
def insertS (s : TimeSeriesStore) (entry : TradeEntry) : TimeSeriesStore :=
  (insert s entry).1

/-- The comparison `(a, b) => a.timestamp - b.timestamp` passed to
`Array.prototype.sort` in `insertBatch` (line 135). -/
def tsLE (a b : TradeEntry) : Prop :=
  a.timestamp ≤ b.timestamp

instance : DecidableRel tsLE := fun a b => inferInstanceAs (Decidable (a.timestamp ≤ b.timestamp))

instance : IsTotal TradeEntry tsLE := ⟨fun a b => Int.le_total a.timestamp b.timestamp⟩

instance : IsTrans TradeEntry tsLE := ⟨fun _ _ _ h h2 => le_trans h h2⟩

/-- Sort call `[...entries].sort((a, b) => a.timestamp - b.timestamp)`:
`Array.prototype.sort` is a stable ascending sort; `List.insertionSort` with the
non-strict order is a stable ascending sort, hence a faithful model. -/
def sortByTimestamp (entries : List TradeEntry) : List TradeEntry :=
  List.insertionSort tsLE entries

/-- One iteration of the `insertBatch` loop (lines 137–157): look the bucket up
(created empty when absent) and `bucket.push(entry)` — the batch path appends
rather than splicing. -/
def insertBatchStep (s : TimeSeriesStore) (entry : TradeEntry) : TimeSeriesStore :=
  let bucketKey := getBucketKey entry.timestamp
  let bucket := (s.buckets bucketKey).getD []
  { buckets := setBucket s.buckets bucketKey (bucket ++ [entry]),
    totalCount := s.totalCount + 1,
    minTimestamp := minUpdate s.minTimestamp entry.timestamp,
    maxTimestamp := maxUpdate s.maxTimestamp entry.timestamp }

/-- Function `insertBatch(entries)` (lines 133–161): sort a copy, append each entry to
its bucket, and emit a single `batch` event carrying the sorted sequence. -/
def insertBatch (s : TimeSeriesStore) (entries : List TradeEntry) :
    TimeSeriesStore × List StoreEvent :=
  let sorted := sortByTimestamp entries
  (sorted.foldl insertBatchStep s, [StoreEvent.batch sorted])

/-- Function `clear()` (lines 336–341). -/
def clear (_s : TimeSeriesStore) : TimeSeriesStore :=
  { buckets := fun _ => none, totalCount := 0, minTimestamp := none, maxTimestamp := none }

/-- Options record `TimeRangeQueryOptions` (types.ts): half-open window plus optional filters. -/
structure TimeRangeQueryOptions where
  start : Int
  «end» : Int
  source : Option String := none
  side : Option Side := none
  limit : Option Nat := none

/-- The guard `if (source && entry.source !== source) continue` (line 191):
JavaScript truthiness makes the empty string behave as an unset filter. -/
def srcSkip (source : Option String) (e : TradeEntry) : Bool :=
  match source with
  | some s => s ≠ "" && e.source ≠ s
  | none => false

/-- The guard `if (side && entry.side !== side) continue` (line 192); the two
side values are non-empty strings, hence always truthy. -/
def sideSkip (side : Option Side) (e : TradeEntry) : Bool :=
  match side with
  | some sd => e.side ≠ sd
  | none => false

/-- The check `if (limit && results.length >= limit)` (line 197): a `limit` of
`0` is falsy and never triggers the early return. -/
def limitHit (limit : Option Nat) (n : Nat) : Bool :=
  match limit with
  | some m => m ≠ 0 && m ≤ n
  | none => false

/-- The inner entry loop of `getByTimeRange` (lines 184–200).  Returns the
accumulated results and whether the `limit` early-`return` fired; `break` on
the first entry with `timestamp ≥ end` only leaves the current bucket. -/
def scanBucket (q : TimeRangeQueryOptions) (acc : List TradeEntry) :
    List TradeEntry → List TradeEntry × Bool
  | [] => (acc, false)
  | e :: rest =>
    if e.timestamp ≥ q.«end» then (acc, false)
    else if srcSkip q.source e then scanBucket q acc rest
    else if sideSkip q.side e then scanBucket q acc rest
    else
      let acc2 := acc ++ [e]
      if limitHit q.limit acc2.length then (acc2, true)
      else scanBucket q acc2 rest

/-- The ascending bucket keys visited by
`for (let bucketKey = startBucket; bucketKey <= endBucket; bucketKey++)`. -/
def bucketSeq (k0 k1 : Int) : List Int :=
  (List.range (k1 + 1 - k0).toNat).map (fun i : Nat => k0 + (i : Int))

/-- The outer bucket loop of `getByTimeRange` (lines 174–201): missing buckets
are skipped, the start bucket begins at `findFirstAtOrAfter(bucket, start)`,
and a fired limit returns immediately. -/
def rangeGo (s : TimeSeriesStore) (q : TimeRangeQueryOptions) (k0 : Int)
    (acc : List TradeEntry) : List Int → List TradeEntry
  | [] => acc
  | k :: ks =>
    match s.buckets k with
    | none => rangeGo s q k0 acc ks
    | some bucket =>
      let startIndex := if k = k0 then findFirstAtOrAfter bucket q.start else 0
      let res := scanBucket q acc (bucket.drop startIndex)
      if res.2 then res.1 else rangeGo s q k0 res.1 ks

/-- Function `getByTimeRange(options)` (lines 167–204); `endBucket` uses `end - 1`
because `end` is exclusive. -/
def getByTimeRange (s : TimeSeriesStore) (q : TimeRangeQueryOptions) : List TradeEntry :=
  let startBucket := getBucketKey q.start
  let endBucket := getBucketKey (q.«end» - 1)
  rangeGo s q startBucket [] (bucketSeq startBucket endBucket)

/-- The collection loop of `getAtTime` (lines 221–223): walk right from
`startIndex` while the timestamp still matches. -/
def collectSame (bucket : List TradeEntry) (startIndex : Nat) (timestamp : Int) :
    List TradeEntry :=
  (bucket.drop startIndex).takeWhile (fun e => e.timestamp = timestamp)

/-- Function `getAtTime(timestamp)` (lines 209–226): binary-search for *some* matching
index and collect to the right of it (the source walks only rightward). -/
def getAtTime (s : TimeSeriesStore) (timestamp : Int) : List TradeEntry :=
  match s.buckets (getBucketKey timestamp) with
  | none => []
  | some bucket =>
    let startIndex := findIndexAtTime bucket timestamp
    if startIndex = -1 then []
    else collectSame bucket startIndex.toNat timestamp

/-- The target-bucket candidate logic of `getNearest` (lines 239–263):
`afterEntry` first with tolerance check, then `beforeEntry` overwrites only on
a strictly smaller distance. -/
def nearestInBucket (bucket : List TradeEntry) (timestamp tolerance : Int) :
    Option TradeEntry :=
  let index := findFirstAtOrAfter bucket timestamp
  let afterEntry := bucket.get? index
  let beforeEntry := if 0 < index then bucket.get? (index - 1) else none
  let n1 : Option TradeEntry :=
    match afterEntry with
    | some a => if |a.timestamp - timestamp| ≤ tolerance then some a else none
    | none => none
  match beforeEntry with
  | some b =>
    if |b.timestamp - timestamp| ≤ tolerance then
      match n1 with
      | some a => if |b.timestamp - timestamp| < |a.timestamp - timestamp| then some b else some a
      | none => some b
    else n1
  | none => n1

/-- The candidate pair drawn from an adjacent bucket (lines 279–284), in source
order: the entry at the insertion point, then its predecessor. -/
def adjCandidates (adjBucket : List TradeEntry) (timestamp : Int) : List TradeEntry :=
  let index := findFirstAtOrAfter adjBucket timestamp
  (match adjBucket.get? index with
   | some a => [a]
   | none => []) ++
  (if 0 < index then
    match adjBucket.get? (index - 1) with
    | some b => [b]
    | none => []
   else [])

/-- The candidate fold of the adjacent-bucket phase (lines 286–294): only a
strictly smaller distance (within tolerance) overwrites the current nearest. -/
def phase2Step (timestamp tolerance : Int) (acc : Option TradeEntry) (c : TradeEntry) :
    Option TradeEntry :=
  let distance := |c.timestamp - timestamp|
  if distance ≤ tolerance &&
      (match acc with
       | none => true
       | some n => distance < |n.timestamp - timestamp|) then
    some c
  else acc

/-- Function `getNearest(timestamp, tolerance)` (lines 233–298).  If the target bucket
produced a candidate it is returned without looking further; otherwise buckets
`key - 1` and `key + 1` are examined in that order. -/
def getNearest (s : TimeSeriesStore) (timestamp : Int) (tolerance : Int) :
    Option TradeEntry :=
  let bucketKey := getBucketKey timestamp
  let p1 : Option TradeEntry :=
    match s.buckets bucketKey with
    | some bucket => if bucket.length > 0 then nearestInBucket bucket timestamp tolerance else none
    | none => none
  match p1 with
  | some e => some e
  | none =>
    let checkBuckets := [s.buckets (bucketKey - 1), s.buckets (bucketKey + 1)]
    checkBuckets.foldl
      (fun acc ob =>
        match ob with
        | none => acc
        | some adjBucket =>
          if adjBucket.length = 0 then acc
          else (adjCandidates adjBucket timestamp).foldl (phase2Step timestamp tolerance) acc)
      none

/-- A store reached from a fresh store by a sequence of `insert` calls. -/
def buildStore (S : List TradeEntry) : TimeSeriesStore :=
  S.foldl insertS emptyStore

/-- The entries of bucket `k` (`[]` when the bucket is absent). -/
def bucketEntries (s : TimeSeriesStore) (k : Int) : List TradeEntry :=
  (s.buckets k).getD []

/-!
Reference definitions (specification side)

These follow the wording of the claims, to be compared with the embedded
operations above.
-/

/-- The insert sequence `S` arranged "in timestamp order, ties in reverse
insertion order": a stable ascending sort of the reversed sequence. -/
def refSorted (S : List TradeEntry) : List TradeEntry :=
  List.insertionSort tsLE S.reverse

/-- "Truncated to the first `limit` elements when a nonzero limit is set";
a limit of `0` (falsy in the source) means no truncation. -/
def truthyTake (limit : Option Nat) (l : List TradeEntry) : List TradeEntry :=
  match limit with
  | none => l
  | some 0 => l
  | some n => l.take n

/-- "Matches the source filter" — an empty-string filter counts as unset. -/
def srcMatches (source : Option String) (e : TradeEntry) : Bool :=
  match source with
  | none => true
  | some s => s == "" || e.source == s

/-- "Matches the side filter". -/
def sideMatches (side : Option Side) (e : TradeEntry) : Bool :=
  match side with
  | none => true
  | some sd => e.side == sd

/-- An entry lies in the half-open window and matches both optional filters. -/
def rangeMatch (q : TimeRangeQueryOptions) (e : TradeEntry) : Bool :=
  decide (q.start ≤ e.timestamp) && decide (e.timestamp < q.«end») &&
    srcMatches q.source e && sideMatches q.side e

/-!
Proof-side auxiliary definitions
-/

/-- The filter step of the range scan, isolated: the entry survives both
`continue` guards. -/
def keepEntry (q : TimeRangeQueryOptions) (e : TradeEntry) : Bool :=
  !srcSkip q.source e && !sideSkip q.side e

/-- The length of the prefix of `l` strictly below `ts` — the reference value
of the binary searches on a sorted bucket. -/
def TW (l : List TradeEntry) (ts : Int) : Nat :=
  (l.takeWhile (fun e => decide (e.timestamp < ts))).length

/-- Predicate: `N` is the lower-bound boundary of `ts` in `l`: everything before index
`N` is strictly below `ts`, everything from `N` on is at or above it. -/
def IsLB (l : List TradeEntry) (ts : Int) (N : Nat) : Prop :=
  N ≤ l.length ∧
  (∀ i (h : i < l.length), i < N → (l.get ⟨i, h⟩).timestamp < ts) ∧
  (∀ i (h : i < l.length), N ≤ i → ts ≤ (l.get ⟨i, h⟩).timestamp)

/-- Representation invariant of an insert-built store: bucket `k` holds
exactly the matching slice of the globally ordered sequence. -/
def RepInv (s : TimeSeriesStore) (S : List TradeEntry) : Prop :=
  ∀ k, bucketEntries s k =
    (refSorted S).filter (fun e => decide (getBucketKey e.timestamp = k))

/-- What one bucket contributes to a range query, before the limit cut. -/
def contrib (s : TimeSeriesStore) (q : TimeRangeQueryOptions) (k0 k : Int) :
    List TradeEntry :=
  ((if k = k0 then
      (bucketEntries s k).drop (findFirstAtOrAfter (bucketEntries s k) q.start)
    else bucketEntries s k).takeWhile
      (fun e => decide (e.timestamp < q.«end»))).filter (keepEntry q)

/-- The pure value of one bucket scan, before any limit accounting. -/
def processed (q : TimeRangeQueryOptions) (entries : List TradeEntry) : List TradeEntry :=
  (entries.takeWhile (fun e => decide (e.timestamp < q.«end»))).filter (keepEntry q)

end TimeSeriesStore

/-- Concrete-entry builder for witnesses and counterexamples. -/
def mkTrade (ts : Int) (sd : Side) (src : String) : TradeEntry :=
  { timestamp := ts, price := 100, size := 1, side := sd, source := src }

/-!
Object loader and ingestion coordinator (`src/ingestion/S3Ingester.ts`)

`JSON.parse` output is modelled by `JVal`.  A parsed JavaScript number is a
double: finite doubles are rationals, and a numeric literal whose magnitude
overflows the double range (e.g. `1e999`) parses to `Infinity` or `-Infinity`;
`JSON.parse` can never produce `NaN` (the grammar has no such literal and
overflow rounds to an infinity), so `JsNumber` has no NaN constructor.
-/

inductive JsNumber where
  | val (q : Rat)
  | posInf
  | negInf
deriving DecidableEq, Repr

inductive JVal where
  | num (n : JsNumber)
  | str (s : String)
  | boolean (b : Bool)
  | null
  | arr (xs : List JVal)
  | obj (fields : List (String × JVal))
deriving Repr

namespace S3Ingester

/-- Property access `entry.name` on a non-null value: objects yield the field
(`none` = `undefined` when missing); primitives and arrays have no own property
named `timestamp`/`price`/`size`/`side`/`source`, so the access yields
`undefined`.  Access on `null` throws and is handled in `validateRow`. -/
def propOf (v : JVal) (name : String) : Option JVal :=
  match v with
  | JVal.obj fields => fields.lookup name
  | _ => none

/-- Test whether `v` is JavaScript `null`. -/
def isNull (v : JVal) : Bool :=
  match v with
  | JVal.null => true
  | _ => false

/-- Typeof-number test on a (possibly missing) property value: true for
any number, finite or not. -/
def typeofNumber (p : Option JVal) : Bool :=
  match p with
  | some (JVal.num _) => true
  | _ => false

/-- Typeof-string test. -/
def typeofString (p : Option JVal) : Bool :=
  match p with
  | some (JVal.str _) => true
  | _ => false

/-- Side test (strict equality against buy or sell): strict equality against a
string literal holds only for an equal string. -/
def sideIsBuyOrSell (p : Option JVal) : Bool :=
  match p with
  | some (JVal.str s) => s == "buy" || s == "sell"
  | _ => false

/-- The predicate of `entries.filter(...)` in `loadFile` (lines 116–124). -/
def rowChecks (entry : JVal) : Bool :=
  typeofNumber (propOf entry ("timestamp")) &&
  typeofNumber (propOf entry ("price")) &&
  typeofNumber (propOf entry ("size")) &&
  sideIsBuyOrSell (propOf entry ("side")) &&
  typeofString (propOf entry ("source"))

/-- One filter-callback evaluation: reading `entry.timestamp` off a `null` row
throws a `TypeError` (aborting the whole file); on any other row every property
access is safe and the row is judged by `rowChecks`. -/
def validateRow (entry : JVal) : Except String Bool :=
  if isNull entry then
    Except.error ("TypeError: cannot read properties of null")
  else
    Except.ok (rowChecks entry)

/-- Filter loop `entries.filter(...)` with the throwing callback: rows are visited left to
right, surviving rows keep payload order, the first thrown error aborts. -/
def filterRows : List JVal → Except String (List JVal)
  | [] => Except.ok []
  | r :: rest =>
    match validateRow r with
    | Except.error e => Except.error e
    | Except.ok true =>
      match filterRows rest with
      | Except.ok l => Except.ok (r :: l)
      | Except.error e => Except.error e
    | Except.ok false => filterRows rest

/-- Wrapping step `Array.isArray(data) ? data : [data]` (line 113). -/
def rootRows (data : JVal) : List JVal :=
  match data with
  | JVal.arr xs => xs
  | v => [v]

/-- The validation tail of `loadFile` (lines 110–124), applied to the
successfully parsed JSON document: wrap a lone object, then filter. -/
def loadRows (data : JVal) : Except String (List JVal) :=
  filterRows (rootRows data)

/-- Reference row validity, following the words of the amended claim: `timestamp`,
`price` and `size` are numbers (finite or infinite), `side` is the string
`"buy"` or `"sell"`, and `source` is a string. -/
def validRowAmended (row : JVal) : Bool :=
  match propOf row ("timestamp"), propOf row ("price"), propOf row ("size"),
      propOf row ("side"), propOf row ("source") with
  | some (JVal.num _), some (JVal.num _), some (JVal.num _),
      some (JVal.str sd), some (JVal.str _) => sd == "buy" || sd == "sell"
  | _, _, _, _, _ => false

/-!
The ingestion coordinator.  The S3/SQS transports are capability parameters
(spec §6): a flattened listing is a `List String` of keys and the loader is a
function `String → Except String (List TradeEntry)` (`.error` = the per-object
transport/parse failure propagated by `loadFile`).  The `loadedKeys` field is a
ghost history of loader invocations used to state "zero loads for a key".
-/

/-- Suffix test for dot-json keys: `String.endsWith` does not reduce in the kernel,
so the suffix test is expressed over the character data. -/
def endsWithJson (key : String) : Bool :=
  List.isSuffixOf (".json").data key.data

structure IngesterState where
  store : TimeSeriesStore
  processedKeys : List String
  loadedKeys : List String

/-- Set insertion `this.processedKeys.add(key)` on the list model of the `Set`. -/
def processedAdd (l : List String) (key : String) : List String :=
  if key ∈ l then l else l ++ [key]

/-- Record `LoadResult` (types.ts). -/
structure LoadResult where
  filesProcessed : Nat
  entriesLoaded : Nat
  errors : List (String × String)
deriving DecidableEq, Repr

/-- One key of a `loadInitialData` listing page (lines 68–86): skip non-`.json`
keys, then load / batch-insert / mark processed — the backfill body has *no*
`processedKeys` membership test; failures are recorded in the result. -/
def loadInitialStep (loadFile : String → Except String (List TradeEntry))
    (acc : IngesterState × LoadResult) (key : String) : IngesterState × LoadResult :=
  let (st, res) := acc
  if ¬ endsWithJson key then acc
  else
    match loadFile key with
    | Except.ok entries =>
      ({ store := (st.store.insertBatch entries).1,
         processedKeys := processedAdd st.processedKeys key,
         loadedKeys := st.loadedKeys ++ [key] },
       { res with filesProcessed := res.filesProcessed + 1,
                  entriesLoaded := res.entriesLoaded + entries.length })
    | Except.error msg =>
      ({ st with loadedKeys := st.loadedKeys ++ [key] },
       { res with errors := res.errors ++ [(key, msg)] })

/-- Function `loadInitialData()` (lines 46–92) over the flattened paginated listing. -/
def loadInitialData (loadFile : String → Except String (List TradeEntry))
    (keys : List String) (st : IngesterState) : IngesterState × LoadResult :=
  keys.foldl (loadInitialStep loadFile) (st, { filesProcessed := 0, entriesLoaded := 0, errors := [] })

/-- One record key of `processSqsMessages` (lines 182–194): skip non-`.json`
keys and keys already in `processedKeys`; otherwise load, batch-insert and mark
processed (a load failure is only logged). -/
def processSqsRecordKey (loadFile : String → Except String (List TradeEntry))
    (st : IngesterState) (key : String) : IngesterState :=
  if ¬ endsWithJson key then st
  else if key ∈ st.processedKeys then st
  else
    match loadFile key with
    | Except.ok entries =>
      { store := (st.store.insertBatch entries).1,
        processedKeys := processedAdd st.processedKeys key,
        loadedKeys := st.loadedKeys ++ [key] }
    | Except.error _ =>
      { st with loadedKeys := st.loadedKeys ++ [key] }

/-- One listed key of a polling pass (lines 234–245): identical dedup guard to
the SQS path. -/
def pollKey (loadFile : String → Except String (List TradeEntry))
    (st : IngesterState) (key : String) : IngesterState :=
  if ¬ endsWithJson key then st
  else if key ∈ st.processedKeys then st
  else
    match loadFile key with
    | Except.ok entries =>
      { store := (st.store.insertBatch entries).1,
        processedKeys := processedAdd st.processedKeys key,
        loadedKeys := st.loadedKeys ++ [key] }
    | Except.error _ =>
      { st with loadedKeys := st.loadedKeys ++ [key] }

end S3Ingester

/-!
Consumer façade (`src/consumer/DataConsumer.ts`)

The consumer timestamp arguments are arbitrary JavaScript numbers; the cases
relevant to validation are an (integer) finite value, the two infinities and
`NaN`, modelled by `JsTime`.  the typeof-number guard is always passed
on this domain, so the guard reduces to the `isNaN` test.
-/

inductive JsTime where
  | fin (n : Int)
  | posInf
  | negInf
  | nan
deriving DecidableEq, Repr

namespace DataConsumer

/-- Test `isNaN(t)` for a number argument. -/
def isNaNjs (t : JsTime) : Bool :=
  match t with
  | JsTime.nan => true
  | _ => false

/-- JavaScript `>=` on numbers (IEEE-754): any comparison involving NaN is
false; the infinities compare as extreme values and each is `>=` itself. -/
def jsGe (a b : JsTime) : Bool :=
  match a, b with
  | JsTime.nan, _ => false
  | _, JsTime.nan => false
  | JsTime.fin x, JsTime.fin y => x ≥ y
  | JsTime.fin _, JsTime.posInf => false
  | JsTime.fin _, JsTime.negInf => true
  | JsTime.posInf, _ => true
  | JsTime.negInf, JsTime.negInf => true
  | JsTime.negInf, _ => false

/-- Call of `store.getAtTime` called with a non-finite timestamp: the bucket key
`Math.floor(t / 60000)` is `±Infinity`/`NaN`, the `Map` (whose keys are finite
integers) has no such key, and the store returns `[]` (line 213). -/
def storeGetAtTimeJs (s : TimeSeriesStore) (t : JsTime) : List TradeEntry :=
  match t with
  | JsTime.fin n => s.getAtTime n
  | _ => []

/-- Call of `store.getNearest` with a non-finite timestamp: target and both adjacent
bucket keys are non-finite (`±Infinity ∓ 1` stays infinite, `NaN ± 1` stays
NaN), no bucket matches, result `null`.  An omitted tolerance defaults to
60000 (line 233). -/
def storeGetNearestJs (s : TimeSeriesStore) (t : JsTime) (tolerance : Option Int) :
    Option TradeEntry :=
  match t with
  | JsTime.fin n => s.getNearest n (tolerance.getD 60000)
  | _ => none

/-- Function `DataConsumer.getByTimeRange` (lines 27–45) for finite bounds: reject
`start >= end`, otherwise delegate to the store unchanged. -/
def getByTimeRange (s : TimeSeriesStore) (start «end» : Int) (source : Option String)
    (side : Option Side) (limit : Option Nat) : Except String (List TradeEntry) :=
  if start ≥ «end» then
    Except.error ("Start timestamp must be less than end timestamp")
  else
    Except.ok (s.getByTimeRange { start := start, «end» := «end», source := source,
                                  side := side, limit := limit })

/-- Function `DataConsumer.getAtTime` (lines 51–57): the guard is
the typeof-number test followed by `isNaN(timestamp)`. -/
def getAtTime (s : TimeSeriesStore) (timestamp : JsTime) : Except String (List TradeEntry) :=
  if isNaNjs timestamp then
    Except.error ("Timestamp must be a valid number")
  else
    Except.ok (storeGetAtTimeJs s timestamp)

/-- Function `DataConsumer.getNearest` (lines 64–70): same guard as `getAtTime`. -/
def getNearest (s : TimeSeriesStore) (timestamp : JsTime) (tolerance : Option Int) :
    Except String (Option TradeEntry) :=
  if isNaNjs timestamp then
    Except.error ("Timestamp must be a valid number")
  else
    Except.ok (storeGetNearestJs s timestamp tolerance)

end DataConsumer


/-!
Lemmas

Bucket-key arithmetic
-/

namespace TimeSeriesStore

theorem getBucketKey_eq_ediv (t : Int) : getBucketKey t = t / 60000 :=
  Int.fdiv_eq_ediv t (by decide)

theorem getBucketKey_mono {a b : Int} (h : a ≤ b) : getBucketKey a ≤ getBucketKey b := by
  rw [getBucketKey_eq_ediv, getBucketKey_eq_ediv]
  omega

theorem getBucketKey_bounds (t : Int) :
    getBucketKey t * 60000 ≤ t ∧ t < (getBucketKey t + 1) * 60000 := by
  rw [getBucketKey_eq_ediv]
  omega

/-!
The shared binary-search loop
-/

theorem getD_eq_get (l : List TradeEntry) (i : Nat) (h : i < l.length) :
    l.getD i default = l.get ⟨i, h⟩ := by
  rw [List.getD_eq_getD_get?, List.get?_eq_get h]
  rfl

theorem lbAux_eq (l : List TradeEntry) (ts : Int) (N : Nat) (hb : IsLB l ts N) :
    ∀ fuel low high, high - low < fuel → low ≤ N → N ≤ high → high ≤ l.length →
      lbAux l ts fuel low high = N := by
  intro fuel
  induction fuel with
  | zero => intro low high hf _ _ _; omega
  | succ fuel ih =>
    intro low high hf hlow hN hlen
    by_cases hlh : low < high
    · have hm1 : low ≤ (low + high) / 2 := by omega
      have hm2 : (low + high) / 2 < high := by omega
      have hmlen : (low + high) / 2 < l.length := lt_of_lt_of_le hm2 hlen
      simp only [lbAux, if_pos hlh, getD_eq_get l _ hmlen]
      by_cases hc : (l.get ⟨(low + high) / 2, hmlen⟩).timestamp < ts
      · have hmidN : (low + high) / 2 < N := by
          by_contra hcon
          exact absurd (hb.2.2 _ hmlen (by omega)) (by omega)
        rw [if_pos hc]
        exact ih ((low + high) / 2 + 1) high (by omega) (by omega) hN hlen
      · have hmidN : N ≤ (low + high) / 2 := by
          by_contra hcon
          exact absurd (hb.2.1 _ hmlen (by omega)) (by omega)
        rw [if_neg hc]
        exact ih low ((low + high) / 2) (by omega) hlow (by omega) (by omega)
    · simp only [lbAux, if_neg hlh]
      omega

theorem IsLB_TW {l : List TradeEntry} (ts : Int) (hs : List.Sorted tsLE l) :
    IsLB l ts (TW l ts) := by
  induction l with
  | nil =>
    refine ⟨by simp [TW], ?_, ?_⟩ <;> intro i h <;> simp at h
  | cons a t iht =>
    rw [List.sorted_cons] at hs
    have ih := iht hs.2
    by_cases pa : a.timestamp < ts
    · have htw : TW (a :: t) ts = TW t ts + 1 := by
        simp [TW, List.takeWhile_cons, pa]
      refine ⟨?_, ?_, ?_⟩
      · simp only [htw, List.length_cons]
        exact Nat.succ_le_succ ih.1
      · intro i h hi
        match i with
        | 0 => exact pa
        | j + 1 =>
          have hj : j < t.length := by simpa using h
          exact ih.2.1 j hj (by omega)
      · intro i h hi
        match i with
        | 0 => omega
        | j + 1 =>
          have hj : j < t.length := by simpa using h
          exact ih.2.2 j hj (by omega)
    · have htw : TW (a :: t) ts = 0 := by
        simp [TW, List.takeWhile_cons, pa]
      refine ⟨by omega, ?_, ?_⟩
      · intro i h hi; omega
      · intro i h _
        match i with
        | 0 =>
          show ts ≤ a.timestamp
          omega
        | j + 1 =>
          have hj : j < t.length := by simpa using h
          have hle : tsLE a (t.get ⟨j, hj⟩) := hs.1 _ (t.get_mem _ _)
          have hle2 : a.timestamp ≤ (t.get ⟨j, hj⟩).timestamp := hle
          show ts ≤ (t.get ⟨j, hj⟩).timestamp
          omega

theorem findFirstAtOrAfter_eq {l : List TradeEntry} {ts : Int} {N : Nat}
    (hb : IsLB l ts N) : findFirstAtOrAfter l ts = N :=
  lbAux_eq l ts N hb (l.length + 1) 0 l.length (by omega) (by omega) hb.1 le_rfl

theorem findFirstAtOrAfter_sorted {l : List TradeEntry} (ts : Int)
    (hs : List.Sorted tsLE l) : findFirstAtOrAfter l ts = TW l ts :=
  findFirstAtOrAfter_eq (IsLB_TW ts hs)

theorem findInsertIndex_eq_findFirstAtOrAfter (l : List TradeEntry) (e : TradeEntry) :
    findInsertIndex l e = findFirstAtOrAfter l e.timestamp := rfl

end TimeSeriesStore

/-!
Boundary / takeWhile bridges and the splice–orderedInsert connection
-/

namespace TimeSeriesStore

theorem take_TW (l : List TradeEntry) (ts : Int) :
    l.take (TW l ts) = l.takeWhile (fun e => decide (e.timestamp < ts)) := by
  induction l with
  | nil => rfl
  | cons a t ih =>
    by_cases pa : a.timestamp < ts
    · rw [show TW (a :: t) ts = TW t ts + 1 by simp [TW, List.takeWhile_cons, pa],
        List.take_succ_cons, List.takeWhile_cons, if_pos (by simpa using pa), ih]
    · rw [show TW (a :: t) ts = 0 by simp [TW, List.takeWhile_cons, pa],
        List.take_zero, List.takeWhile_cons, if_neg (by simpa using pa)]

theorem drop_TW (l : List TradeEntry) (ts : Int) :
    l.drop (TW l ts) = l.dropWhile (fun e => decide (e.timestamp < ts)) := by
  have h1 := List.take_append_drop (TW l ts) l
  rw [take_TW] at h1
  exact List.append_cancel_left
    (h1.trans (List.takeWhile_append_dropWhile (fun e => decide (e.timestamp < ts)) l).symm)

theorem spliceInsert_TW (l : List TradeEntry) (e : TradeEntry) :
    spliceInsert l (TW l e.timestamp) e =
      l.takeWhile (fun b => decide (b.timestamp < e.timestamp)) ++
        e :: l.dropWhile (fun b => decide (b.timestamp < e.timestamp)) := by
  unfold spliceInsert
  rw [take_TW, drop_TW]

theorem orderedInsert_eq_splice (l : List TradeEntry) (e : TradeEntry) :
    List.orderedInsert tsLE e l = spliceInsert l (TW l e.timestamp) e := by
  rw [spliceInsert_TW, List.orderedInsert_eq_take_drop]
  have hp : (fun b : TradeEntry => decide ¬tsLE e b) =
      fun b : TradeEntry => decide (b.timestamp < e.timestamp) := by
    funext b
    simp [tsLE, Int.not_le]
  rw [hp]

/-- If `a` precedes every element of `M`, ordered insertion prepends it. -/
theorem orderedInsert_eq_cons {a : TradeEntry} {M : List TradeEntry}
    (h : ∀ x ∈ M, tsLE a x) : List.orderedInsert tsLE a M = a :: M := by
  cases M with
  | nil => rfl
  | cons b t =>
    have : tsLE a b := h b (List.mem_cons_self b t)
    simp [List.orderedInsert, if_pos this]

/-- Filtering commutes with ordered insertion into a sorted list. -/
theorem filter_orderedInsert (P : TradeEntry → Bool) (a : TradeEntry) :
    ∀ (L : List TradeEntry), List.Sorted tsLE L →
      (List.orderedInsert tsLE a L).filter P =
        if P a then List.orderedInsert tsLE a (L.filter P) else L.filter P := by
  intro L
  induction L with
  | nil =>
    intro _
    simp [List.orderedInsert_nil, List.filter_cons]
  | cons b t ih =>
    intro hs
    rw [List.sorted_cons] at hs
    by_cases hr : tsLE a b
    · have hfront : ∀ x ∈ List.filter P (b :: t), tsLE a x := by
        intro x hx
        rcases List.mem_filter.mp hx with ⟨hx', _⟩
        rcases List.mem_cons.mp hx' with h0 | h1
        · exact h0 ▸ hr
        · exact Trans.trans hr (hs.1 x h1)
      simp only [List.orderedInsert, if_pos hr]
      by_cases hp : P a
      · rw [List.filter_cons, if_pos hp, orderedInsert_eq_cons hfront]
        simp [hp]
      · rw [List.filter_cons, if_neg (by simpa using hp)]
        simp [hp]
    · simp only [List.orderedInsert, if_neg hr]
      rw [List.filter_cons]
      by_cases hpb : P b
      · rw [if_pos hpb, ih hs.2, List.filter_cons, if_pos hpb]
        by_cases hp : P a
        · rw [if_pos hp, if_pos hp]
          have : List.orderedInsert tsLE a (b :: List.filter P t) =
              b :: List.orderedInsert tsLE a (List.filter P t) := by
            simp [List.orderedInsert, if_neg hr]
          rw [this]
        · rw [if_neg hp, if_neg hp]
      · rw [if_neg hpb, ih hs.2, List.filter_cons, if_neg hpb]

/-!
The globally ordered sequence `refSorted`
-/

theorem refSorted_sorted (S : List TradeEntry) : List.Sorted tsLE (refSorted S) :=
  List.sorted_insertionSort tsLE S.reverse

theorem refSorted_append (S : List TradeEntry) (e : TradeEntry) :
    refSorted (S ++ [e]) = List.orderedInsert tsLE e (refSorted S) := by
  unfold refSorted
  rw [List.reverse_append]
  rfl

theorem refSorted_perm (S : List TradeEntry) : (refSorted S).Perm S :=
  (List.perm_insertionSort tsLE S.reverse).trans (List.reverse_perm S)

end TimeSeriesStore

/-!
The representation invariant of insert-built stores
-/

namespace TimeSeriesStore

theorem bucketEntries_insertS (s : TimeSeriesStore) (e : TradeEntry)
    (hsorted : List.Sorted tsLE (bucketEntries s (getBucketKey e.timestamp))) (k : Int) :
    bucketEntries (insertS s e) k =
      if k = getBucketKey e.timestamp then
        List.orderedInsert tsLE e (bucketEntries s k)
      else
        bucketEntries s k := by
  show ((setBucket s.buckets (getBucketKey e.timestamp) _) k).getD [] = _
  unfold setBucket
  by_cases hk : k = getBucketKey e.timestamp
  · rw [if_pos hk, if_pos hk, Option.getD_some, hk]
    have hb : (s.buckets (getBucketKey e.timestamp)).getD [] =
        bucketEntries s (getBucketKey e.timestamp) := rfl
    rw [findInsertIndex_eq_findFirstAtOrAfter, hb,
      findFirstAtOrAfter_sorted e.timestamp hsorted, orderedInsert_eq_splice]
  · rw [if_neg hk, if_neg hk]
    rfl

theorem repInv_empty : RepInv emptyStore [] := by
  intro k
  rfl

theorem repInv_insertS {s : TimeSeriesStore} {S : List TradeEntry} (hrep : RepInv s S)
    (e : TradeEntry) : RepInv (insertS s e) (S ++ [e]) := by
  have hsorted : List.Sorted tsLE (bucketEntries s (getBucketKey e.timestamp)) := by
    rw [hrep]
    exact (refSorted_sorted S).filter _
  intro k
  rw [bucketEntries_insertS s e hsorted k, refSorted_append,
    filter_orderedInsert _ e _ (refSorted_sorted S)]
  by_cases hk : k = getBucketKey e.timestamp
  · rw [if_pos hk, if_pos (by simp [hk]), hrep k]
  · rw [if_neg hk,
      if_neg (by simpa using fun h : getBucketKey e.timestamp = k => hk h.symm), hrep k]

theorem buildStore_rep (S : List TradeEntry) : RepInv (buildStore S) S := by
  induction S using List.reverseRecOn with
  | nil => exact repInv_empty
  | append_singleton S e ih =>
    unfold buildStore
    rw [List.foldl_append]
    exact repInv_insertS ih e

theorem buildStore_bucket_sorted (S : List TradeEntry) (k : Int) :
    List.Sorted tsLE (bucketEntries (buildStore S) k) := by
  rw [buildStore_rep S k]
  exact (refSorted_sorted S).filter _

theorem buildStore_bucket_key (S : List TradeEntry) (k : Int) :
    ∀ x ∈ bucketEntries (buildStore S) k, getBucketKey x.timestamp = k := by
  intro x hx
  rw [buildStore_rep S k] at hx
  simpa using (List.mem_filter.mp hx).2

end TimeSeriesStore

/-!
Sorted-list bridges between takeWhile/dropWhile and filter
-/

namespace TimeSeriesStore

theorem takeWhile_lt_eq_filter (c : Int) :
    ∀ l : List TradeEntry, List.Sorted tsLE l →
      l.takeWhile (fun e => decide (e.timestamp < c)) =
        l.filter (fun e => decide (e.timestamp < c)) := by
  intro l
  induction l with
  | nil => intro _; rfl
  | cons a t ih =>
    intro hs
    rw [List.sorted_cons] at hs
    by_cases pa : a.timestamp < c
    · rw [List.takeWhile_cons, List.filter_cons, if_pos (by simpa using pa),
        if_pos (by simpa using pa), ih hs.2]
    · rw [List.takeWhile_cons, List.filter_cons, if_neg (by simpa using pa),
        if_neg (by simpa using pa)]
      symm
      rw [List.filter_eq_nil_iff]
      intro x hx
      have hax : a.timestamp ≤ x.timestamp := hs.1 x hx
      simp only [decide_eq_true_eq]
      omega

theorem dropWhile_lt_eq_filter (c : Int) :
    ∀ l : List TradeEntry, List.Sorted tsLE l →
      l.dropWhile (fun e => decide (e.timestamp < c)) =
        l.filter (fun e => decide (c ≤ e.timestamp)) := by
  intro l
  induction l with
  | nil => intro _; rfl
  | cons a t ih =>
    intro hs
    rw [List.sorted_cons] at hs
    by_cases pa : a.timestamp < c
    · rw [List.dropWhile_cons, List.filter_cons, if_pos (by simpa using pa),
        if_neg (by simp; omega), ih hs.2]
    · rw [List.dropWhile_cons, List.filter_cons, if_neg (by simpa using pa),
        if_pos (by simp; omega)]
      congr 1
      symm
      rw [List.filter_eq_self]
      intro x hx
      have hax : a.timestamp ≤ x.timestamp := hs.1 x hx
      simp only [decide_eq_true_eq]
      omega

/-- Two disjoint filters over a list in which every `B`-element comes after
every `A`-element concatenate to the filter of the disjunction. -/
theorem filter_append_filter (A B : TradeEntry → Bool) :
    ∀ G : List TradeEntry, (∀ e, ¬(A e = true ∧ B e = true)) →
      List.Pairwise (fun x y => ¬(B x = true ∧ A y = true)) G →
      G.filter A ++ G.filter B = G.filter (fun e => A e || B e) := by
  intro G
  induction G with
  | nil => intro _ _; rfl
  | cons g t ih =>
    intro hd hp
    rw [List.pairwise_cons] at hp
    by_cases hA : A g = true
    · have hB : ¬B g = true := fun hB => hd g ⟨hA, hB⟩
      rw [List.filter_cons, List.filter_cons, List.filter_cons, if_pos hA, if_neg hB,
        if_pos (by simp [hA])]
      rw [List.cons_append, ih hd hp.2]
    · by_cases hB : B g = true
      · have hAt : t.filter A = [] := by
          rw [List.filter_eq_nil_iff]
          intro x hx hAx
          exact hp.1 x hx ⟨hB, hAx⟩
        rw [List.filter_cons, List.filter_cons, List.filter_cons, if_neg hA, if_pos hB,
          if_pos (by simp [hB]), hAt, List.nil_append]
        congr 1
        apply List.filter_congr
        intro x hx
        have hAx : ¬A x = true := fun hAx => hp.1 x hx ⟨hB, hAx⟩
        simp [hAx]
      · rw [List.filter_cons, List.filter_cons, List.filter_cons, if_neg hA, if_neg hB,
          if_neg (by simp [hA, hB])]
        exact ih hd hp.2

/-!
The visited bucket-key sequence
-/

theorem bucketSeq_nil {k0 k1 : Int} (h : k1 < k0) : bucketSeq k0 k1 = [] := by
  unfold bucketSeq
  have : (k1 + 1 - k0).toNat = 0 := by omega
  rw [this]
  rfl

theorem bucketSeq_cons {k0 k1 : Int} (h : k0 ≤ k1) :
    bucketSeq k0 k1 = k0 :: bucketSeq (k0 + 1) k1 := by
  unfold bucketSeq
  have h1 : (k1 + 1 - k0).toNat = (k1 + 1 - (k0 + 1)).toNat + 1 := by omega
  rw [h1, List.range_succ_eq_map, List.map_cons, List.map_map]
  congr 1
  · simp
  · apply List.map_congr_left
    intro i _
    simp [Nat.succ_eq_add_one]
    ring

theorem bucketSeq_mem {k0 k1 k : Int} (h : k ∈ bucketSeq k0 k1) : k0 ≤ k ∧ k ≤ k1 := by
  unfold bucketSeq at h
  rcases List.mem_map.mp h with ⟨i, hi, rfl⟩
  rw [List.mem_range] at hi
  omega

end TimeSeriesStore

/-!
Characterisation of the range scan
-/

namespace TimeSeriesStore

theorem scanBucket_noLimit (q : TimeRangeQueryOptions)
    (hq : q.limit = none ∨ q.limit = some 0) :
    ∀ (entries : List TradeEntry) (acc : List TradeEntry),
      scanBucket q acc entries = (acc ++ processed q entries, false) := by
  intro entries
  induction entries with
  | nil => intro acc; simp [scanBucket, processed]
  | cons e rest ih =>
    intro acc
    by_cases hend : e.timestamp ≥ q.«end»
    · rw [show scanBucket q acc (e :: rest) = (acc, false) by simp [scanBucket, hend]]
      have hp : processed q (e :: rest) = [] := by
        simp [processed, List.takeWhile_cons, show ¬e.timestamp < q.«end» by omega]
      rw [hp, List.append_nil]
    · have hlt : e.timestamp < q.«end» := by omega
      have hproc : processed q (e :: rest) =
          if keepEntry q e then e :: processed q rest else processed q rest := by
        simp only [processed, List.takeWhile_cons]
        rw [if_pos (show (decide (e.timestamp < q.«end»)) = true by simpa using hlt),
          List.filter_cons]
      by_cases hsrc : srcSkip q.source e
      · have hk : keepEntry q e = false := by simp [keepEntry, hsrc]
        rw [show scanBucket q acc (e :: rest) = scanBucket q acc rest by
          simp [scanBucket, hend, hsrc]]
        rw [ih acc, hproc, hk]
        simp
      · by_cases hside : sideSkip q.side e
        · have hk : keepEntry q e = false := by simp [keepEntry, hside]
          rw [show scanBucket q acc (e :: rest) = scanBucket q acc rest by
            simp [scanBucket, hend, hsrc, hside]]
          rw [ih acc, hproc, hk]
          simp
        · have hk : keepEntry q e = true := by simp [keepEntry, hsrc, hside]
          have hlim : limitHit q.limit (acc.length + 1) = false := by
            rcases hq with h | h <;> simp [limitHit, h]
          rw [show scanBucket q acc (e :: rest) = scanBucket q (acc ++ [e]) rest by
            simp [scanBucket, hend, hsrc, hside, hlim]]
          rw [ih (acc ++ [e]), hproc, hk]
          simp

theorem scanBucket_limit (q : TimeRangeQueryOptions) (n : Nat) (hn : n ≠ 0)
    (hq : q.limit = some n) :
    ∀ (entries : List TradeEntry) (acc : List TradeEntry), acc.length < n →
      scanBucket q acc entries =
        (acc ++ (processed q entries).take (n - acc.length),
         decide (n - acc.length ≤ (processed q entries).length)) := by
  intro entries
  induction entries with
  | nil =>
    intro acc hacc
    have hne : n - acc.length ≠ 0 := by omega
    simp [scanBucket, processed, hne]
  | cons e rest ih =>
    intro acc hacc
    by_cases hend : e.timestamp ≥ q.«end»
    · rw [show scanBucket q acc (e :: rest) = (acc, false) by simp [scanBucket, hend]]
      have hp : processed q (e :: rest) = [] := by
        simp [processed, List.takeWhile_cons, show ¬e.timestamp < q.«end» by omega]
      rw [hp]
      have hne : n - acc.length ≠ 0 := by omega
      simp [hne]
    · have hlt : e.timestamp < q.«end» := by omega
      have hproc : processed q (e :: rest) =
          if keepEntry q e then e :: processed q rest else processed q rest := by
        simp only [processed, List.takeWhile_cons]
        rw [if_pos (show (decide (e.timestamp < q.«end»)) = true by simpa using hlt),
          List.filter_cons]
      by_cases hsrc : srcSkip q.source e
      · have hk : keepEntry q e = false := by simp [keepEntry, hsrc]
        rw [show scanBucket q acc (e :: rest) = scanBucket q acc rest by
          simp [scanBucket, hend, hsrc]]
        rw [ih acc hacc, hproc, hk]
        simp
      · by_cases hside : sideSkip q.side e
        · have hk : keepEntry q e = false := by simp [keepEntry, hside]
          rw [show scanBucket q acc (e :: rest) = scanBucket q acc rest by
            simp [scanBucket, hend, hsrc, hside]]
          rw [ih acc hacc, hproc, hk]
          simp
        · have hk : keepEntry q e = true := by simp [keepEntry, hsrc, hside]
          rw [hproc, hk, if_pos rfl]
          by_cases hfin : n ≤ acc.length + 1
          · have hn1 : n = acc.length + 1 := by omega
            have hlim : limitHit q.limit (acc.length + 1) = true := by
              simp [limitHit, hq, hn]
              omega
            rw [show scanBucket q acc (e :: rest) = (acc ++ [e], true) by
              simp [scanBucket, hend, hsrc, hside, hlim]]
            have h1 : n - acc.length = 1 := by omega
            rw [h1]
            simp
          · have hlim : limitHit q.limit (acc.length + 1) = false := by
              simp [limitHit, hq]
              omega
            rw [show scanBucket q acc (e :: rest) = scanBucket q (acc ++ [e]) rest by
              simp [scanBucket, hend, hsrc, hside, hlim]]
            rw [ih (acc ++ [e]) (by simp; omega)]
            have h2 : n - acc.length = (n - (acc ++ [e]).length) + 1 := by
              simp
              omega
            rw [h2, List.take_succ_cons]
            simp only [Prod.mk.injEq]
            constructor
            · rw [List.append_assoc, List.singleton_append]
            · simp only [List.length_cons]
              exact decide_eq_decide.mpr (by omega)

end TimeSeriesStore

/-!
Characterisation of the bucket loop
-/

namespace TimeSeriesStore

theorem contrib_of_buckets_none {s : TimeSeriesStore} {q : TimeRangeQueryOptions}
    {k0 k : Int} (h : s.buckets k = none) : contrib s q k0 k = [] := by
  unfold contrib bucketEntries
  rw [h]
  rcases em (k = k0) with hk | hk <;> simp [hk, findFirstAtOrAfter, lbAux, processed]

theorem rangeGo_noLimit {s : TimeSeriesStore} {q : TimeRangeQueryOptions} {k0 : Int}
    (hq : q.limit = none ∨ q.limit = some 0) :
    ∀ (ks : List Int) (acc : List TradeEntry),
      rangeGo s q k0 acc ks = acc ++ ((ks.map (contrib s q k0)).flatten) := by
  intro ks
  induction ks with
  | nil => intro acc; simp [rangeGo]
  | cons k ks ih =>
    intro acc
    rw [List.map_cons, List.flatten_cons]
    cases hb : s.buckets k with
    | none =>
      rw [show rangeGo s q k0 acc (k :: ks) = rangeGo s q k0 acc ks by
        simp [rangeGo, hb]]
      rw [ih acc, contrib_of_buckets_none hb, List.nil_append]
    | some bucket =>
      have hbe : bucketEntries s k = bucket := by simp [bucketEntries, hb]
      have hscan :
          scanBucket q acc
              (bucket.drop (if k = k0 then findFirstAtOrAfter bucket q.start else 0)) =
            (acc ++ contrib s q k0 k, false) := by
        rw [scanBucket_noLimit q hq]
        unfold contrib processed
        rw [hbe]
        rcases em (k = k0) with hk | hk <;> simp [hk]
      rw [show rangeGo s q k0 acc (k :: ks) =
          rangeGo s q k0 (acc ++ contrib s q k0 k) ks by
        simp only [rangeGo, hb]
        rw [hscan]
        simp]
      rw [ih, List.append_assoc]

theorem rangeGo_limit {s : TimeSeriesStore} {q : TimeRangeQueryOptions} {k0 : Int}
    (n : Nat) (hn : n ≠ 0) (hq : q.limit = some n) :
    ∀ (ks : List Int) (acc : List TradeEntry), acc.length < n →
      rangeGo s q k0 acc ks =
        acc ++ ((ks.map (contrib s q k0)).flatten).take (n - acc.length) := by
  intro ks
  induction ks with
  | nil => intro acc _; simp [rangeGo]
  | cons k ks ih =>
    intro acc hacc
    rw [List.map_cons, List.flatten_cons]
    cases hb : s.buckets k with
    | none =>
      rw [show rangeGo s q k0 acc (k :: ks) = rangeGo s q k0 acc ks by
        simp [rangeGo, hb]]
      rw [ih acc hacc, contrib_of_buckets_none hb, List.nil_append]
    | some bucket =>
      have hbe : bucketEntries s k = bucket := by simp [bucketEntries, hb]
      have hscan :
          scanBucket q acc
              (bucket.drop (if k = k0 then findFirstAtOrAfter bucket q.start else 0)) =
            (acc ++ (contrib s q k0 k).take (n - acc.length),
             decide (n - acc.length ≤ (contrib s q k0 k).length)) := by
        rw [scanBucket_limit q n hn hq _ acc hacc]
        unfold contrib processed
        rw [hbe]
        rcases em (k = k0) with hk | hk <;> simp [hk]
      by_cases hflag : n - acc.length ≤ (contrib s q k0 k).length
      · rw [show rangeGo s q k0 acc (k :: ks) =
            acc ++ (contrib s q k0 k).take (n - acc.length) by
          simp only [rangeGo, hb]
          rw [hscan]
          simp [hflag]]
        rw [List.take_append_eq_append_take,
          show n - acc.length - (contrib s q k0 k).length = 0 by omega, List.take_zero,
          List.append_nil]
      · rw [show rangeGo s q k0 acc (k :: ks) =
            rangeGo s q k0 (acc ++ contrib s q k0 k) ks by
          simp only [rangeGo, hb]
          rw [hscan]
          simp only [decide_eq_true_eq]
          rw [if_neg hflag, List.take_of_length_le (by omega)]]
        rw [ih (acc ++ contrib s q k0 k) (by simp; omega)]
        have h1 : List.take (n - acc.length)
              (contrib s q k0 k ++ (ks.map (contrib s q k0)).flatten) =
            contrib s q k0 k ++
              List.take (n - (acc ++ contrib s q k0 k).length)
                ((ks.map (contrib s q k0)).flatten) := by
          rw [List.take_append_eq_append_take]
          congr 1
          · exact List.take_of_length_le (by omega)
          · congr 1
            simp
            omega
        rw [h1, List.append_assoc]

theorem getByTimeRange_eq_flatten (s : TimeSeriesStore) (q : TimeRangeQueryOptions) :
    getByTimeRange s q =
      truthyTake q.limit
        (((bucketSeq (getBucketKey q.start) (getBucketKey (q.«end» - 1))).map
            (contrib s q (getBucketKey q.start))).flatten) := by
  unfold getByTimeRange
  cases hl : q.limit with
  | none =>
    rw [rangeGo_noLimit (Or.inl hl), List.nil_append]
    rfl
  | some n =>
    cases n with
    | zero =>
      rw [rangeGo_noLimit (Or.inr hl), List.nil_append]
      rfl
    | succ m =>
      rw [rangeGo_limit (m + 1) (by omega) hl _ [] (by simp)]
      rfl

end TimeSeriesStore

/-!
From bucket contributions to the global filtered sequence
-/

namespace TimeSeriesStore

theorem keepEntry_eq (q : TimeRangeQueryOptions) (e : TradeEntry) :
    keepEntry q e = (srcMatches q.source e && sideMatches q.side e) := by
  unfold keepEntry srcSkip sideSkip srcMatches sideMatches
  cases q.source with
  | none =>
    cases q.side with
    | none => rfl
    | some sd =>
      rw [Bool.eq_iff_iff]
      simp
  | some s =>
    cases q.side with
    | none =>
      rw [Bool.eq_iff_iff]
      by_cases hs : s = "" <;> simp [hs]
    | some sd =>
      rw [Bool.eq_iff_iff]
      by_cases hs : s = "" <;> simp [hs]

theorem contrib_eq (S : List TradeEntry) (q : TimeRangeQueryOptions) {k0 k : Int}
    (hk0 : k0 = getBucketKey q.start) (hk : k0 ≤ k) :
    contrib (buildStore S) q k0 k =
      (refSorted S).filter
        (fun e => decide (getBucketKey e.timestamp = k) &&
          (decide (q.start ≤ e.timestamp) && decide (e.timestamp < q.«end») &&
            keepEntry q e)) := by
  have hrep := buildStore_rep S k
  have hsorted := buildStore_bucket_sorted S k
  have hkeys := buildStore_bucket_key S k
  unfold contrib
  have hstart :
      (if k = k0 then
          (bucketEntries (buildStore S) k).drop
            (findFirstAtOrAfter (bucketEntries (buildStore S) k) q.start)
        else bucketEntries (buildStore S) k) =
      (bucketEntries (buildStore S) k).filter
        (fun e => decide (q.start ≤ e.timestamp)) := by
    by_cases hkk : k = k0
    · rw [if_pos hkk, findFirstAtOrAfter_sorted q.start hsorted, drop_TW,
        dropWhile_lt_eq_filter q.start _ hsorted]
    · rw [if_neg hkk]
      symm
      rw [List.filter_eq_self]
      intro x hx
      have hxk : getBucketKey x.timestamp = k := hkeys x hx
      have hb1 := getBucketKey_bounds x.timestamp
      have hb2 := getBucketKey_bounds q.start
      rw [hxk] at hb1
      rw [← hk0] at hb2
      simp only [decide_eq_true_eq]
      have hklt : k0 + 1 ≤ k := by
        rcases lt_or_eq_of_le hk with h | h
        · omega
        · exact absurd h.symm hkk
      nlinarith [hb1.1, hb2.2]
  rw [hstart]
  have hsorted2 : List.Sorted tsLE
      ((bucketEntries (buildStore S) k).filter (fun e => decide (q.start ≤ e.timestamp))) :=
    hsorted.filter _
  rw [takeWhile_lt_eq_filter _ _ hsorted2]
  rw [List.filter_filter, List.filter_filter, hrep, List.filter_filter]
  apply List.filter_congr
  intro x _
  by_cases h1 : getBucketKey x.timestamp = k <;>
    by_cases h2 : q.start ≤ x.timestamp <;>
      by_cases h3 : x.timestamp < q.«end» <;>
        simp [h1, h2, h3]

theorem flatten_filter_seq (G : List TradeEntry) (hs : List.Sorted tsLE G)
    (Q : TradeEntry → Bool) :
    ∀ (a b : Int),
      ((bucketSeq a b).map
          (fun k => G.filter (fun e => decide (getBucketKey e.timestamp = k) && Q e))).flatten =
        G.filter (fun e =>
          decide (a ≤ getBucketKey e.timestamp) && decide (getBucketKey e.timestamp ≤ b) &&
            Q e) := by
  have H : ∀ (n : Nat) (a b : Int), (b + 1 - a).toNat = n →
      ((bucketSeq a b).map
          (fun k => G.filter (fun e => decide (getBucketKey e.timestamp = k) && Q e))).flatten =
        G.filter (fun e =>
          decide (a ≤ getBucketKey e.timestamp) && decide (getBucketKey e.timestamp ≤ b) &&
            Q e) := by
    intro n
    induction n with
    | zero =>
      intro a b h0
      have hba : b < a := by omega
      rw [bucketSeq_nil hba]
      symm
      rw [List.map_nil, List.flatten_nil, List.filter_eq_nil_iff]
      intro x _
      simp only [Bool.and_eq_true, decide_eq_true_eq, not_and]
      intro hx1 hx2
      omega
    | succ n ihn =>
      intro a b hn1
      have hab : a ≤ b := by omega
      have hd : ∀ e : TradeEntry,
          ¬((decide (getBucketKey e.timestamp = a) && Q e) = true ∧
            (decide (a + 1 ≤ getBucketKey e.timestamp) &&
              decide (getBucketKey e.timestamp ≤ b) && Q e) = true) := by
        intro e
        rintro ⟨hA, hB⟩
        simp only [Bool.and_eq_true, decide_eq_true_eq] at hA hB
        obtain ⟨hA1, _⟩ := hA
        obtain ⟨⟨hB1, _⟩, _⟩ := hB
        omega
      have hp : List.Pairwise (fun x y =>
          ¬((decide (a + 1 ≤ getBucketKey x.timestamp) &&
              decide (getBucketKey x.timestamp ≤ b) && Q x) = true ∧
            (decide (getBucketKey y.timestamp = a) && Q y) = true)) G := by
        apply hs.imp
        intro x y hxy
        rintro ⟨hB, hA⟩
        simp only [Bool.and_eq_true, decide_eq_true_eq] at hA hB
        obtain ⟨⟨hB1, _⟩, _⟩ := hB
        obtain ⟨hA1, _⟩ := hA
        have hm : getBucketKey x.timestamp ≤ getBucketKey y.timestamp := getBucketKey_mono hxy
        omega
      rw [bucketSeq_cons hab, List.map_cons, List.flatten_cons, ihn (a + 1) b (by omega),
        filter_append_filter _ _ G hd hp]
      apply List.filter_congr
      intro x _
      rw [Bool.eq_iff_iff]
      simp only [Bool.or_eq_true, Bool.and_eq_true, decide_eq_true_eq]
      constructor
      · rintro (⟨h1, h2⟩ | ⟨⟨h1, h2⟩, h3⟩)
        · exact ⟨⟨by omega, by omega⟩, h2⟩
        · exact ⟨⟨by omega, by omega⟩, h3⟩
      · rintro ⟨⟨h1, h2⟩, h3⟩
        by_cases hx : getBucketKey x.timestamp = a
        · exact Or.inl ⟨hx, h3⟩
        · exact Or.inr ⟨⟨by omega, h2⟩, h3⟩
  exact fun a b => H (b + 1 - a).toNat a b rfl

end TimeSeriesStore

namespace TimeSeriesStore

/-- Full characterisation of `getByTimeRange` on insert-built stores. -/
theorem getByTimeRange_buildStore (S : List TradeEntry) (q : TimeRangeQueryOptions) :
    getByTimeRange (buildStore S) q =
      truthyTake q.limit ((refSorted S).filter (rangeMatch q)) := by
  rw [getByTimeRange_eq_flatten]
  congr 1
  have h1 : ((bucketSeq (getBucketKey q.start) (getBucketKey (q.«end» - 1))).map
      (contrib (buildStore S) q (getBucketKey q.start))).flatten =
      (refSorted S).filter (fun e =>
        decide (getBucketKey q.start ≤ getBucketKey e.timestamp) &&
          decide (getBucketKey e.timestamp ≤ getBucketKey (q.«end» - 1)) &&
          (decide (q.start ≤ e.timestamp) && decide (e.timestamp < q.«end») &&
            keepEntry q e)) := by
    rw [List.map_congr_left (fun k hk => contrib_eq S q rfl (bucketSeq_mem hk).1)]
    exact flatten_filter_seq (refSorted S) (refSorted_sorted S) _ _ _
  rw [h1]
  apply List.filter_congr
  intro x _
  rw [keepEntry_eq, Bool.eq_iff_iff]
  unfold rangeMatch
  simp only [Bool.and_eq_true, decide_eq_true_eq]
  constructor
  · rintro ⟨⟨_, _⟩, ⟨hw1, hw2⟩, hm1, hm2⟩
    exact ⟨⟨⟨hw1, hw2⟩, hm1⟩, hm2⟩
  · rintro ⟨⟨⟨hw1, hw2⟩, hm1⟩, hm2⟩
    have hk1 : getBucketKey q.start ≤ getBucketKey x.timestamp := getBucketKey_mono hw1
    have hk2 : getBucketKey x.timestamp ≤ getBucketKey (q.«end» - 1) :=
      getBucketKey_mono (by omega)
    exact ⟨⟨hk1, hk2⟩, ⟨hw1, hw2⟩, hm1, hm2⟩

/-- Full characterisation of a single `insert` into an insert-built store:
the entry is spliced right before the first stored entry whose timestamp is
at or above its own — in particular *before* all equal-timestamp entries. -/
theorem insert_buildStore (S : List TradeEntry) (e : TradeEntry) :
    (insertS (buildStore S) e).buckets (getBucketKey e.timestamp) =
      some ((bucketEntries (buildStore S) (getBucketKey e.timestamp)).takeWhile
              (fun b => decide (b.timestamp < e.timestamp)) ++
            e :: (bucketEntries (buildStore S) (getBucketKey e.timestamp)).dropWhile
              (fun b => decide (b.timestamp < e.timestamp))) := by
  have hsorted := buildStore_bucket_sorted S (getBucketKey e.timestamp)
  have h1 : (insertS (buildStore S) e).buckets (getBucketKey e.timestamp) =
      some (spliceInsert (bucketEntries (buildStore S) (getBucketKey e.timestamp))
        (findInsertIndex (bucketEntries (buildStore S) (getBucketKey e.timestamp)) e) e) := by
    show setBucket (buildStore S).buckets (getBucketKey e.timestamp)
        (spliceInsert (bucketEntries (buildStore S) (getBucketKey e.timestamp))
          (findInsertIndex (bucketEntries (buildStore S) (getBucketKey e.timestamp)) e) e)
        (getBucketKey e.timestamp) = _
    unfold setBucket
    rw [if_pos rfl]
  rw [h1, findInsertIndex_eq_findFirstAtOrAfter, findFirstAtOrAfter_sorted _ hsorted,
    spliceInsert_TW]

end TimeSeriesStore

/-!
Characterisation of `getNearest`
-/

namespace TimeSeriesStore

theorem sorted_get_le {l : List TradeEntry} (hs : List.Sorted tsLE l) (i j : Nat)
    (hi : i < l.length) (hj : j < l.length) (hij : i ≤ j) :
    (l.get ⟨i, hi⟩).timestamp ≤ (l.get ⟨j, hj⟩).timestamp := by
  rcases Nat.eq_or_lt_of_le hij with h | h
  · subst h
    exact le_rfl
  · exact List.pairwise_iff_get.mp hs ⟨i, hi⟩ ⟨j, hj⟩ h

theorem nearestInBucket_both {B : List TradeEntry} {t tol : Int} {N : Nat}
    {a b : TradeEntry} (hN : findFirstAtOrAfter B t = N) (ha : B.get? N = some a)
    (h0 : 0 < N) (hb : B.get? (N - 1) = some b) :
    nearestInBucket B t tol =
      if |b.timestamp - t| ≤ tol then
        if |a.timestamp - t| ≤ tol then
          if |b.timestamp - t| < |a.timestamp - t| then some b else some a
        else some b
      else if |a.timestamp - t| ≤ tol then some a else none := by
  simp only [nearestInBucket]
  rw [hN, ha, if_pos h0, hb]
  by_cases h1 : |a.timestamp - t| ≤ tol <;> by_cases h2 : |b.timestamp - t| ≤ tol <;>
    simp [h1, h2]

theorem nearestInBucket_onlyAfter {B : List TradeEntry} {t tol : Int} {a : TradeEntry}
    (hN : findFirstAtOrAfter B t = 0) (ha : B.get? 0 = some a) :
    nearestInBucket B t tol = if |a.timestamp - t| ≤ tol then some a else none := by
  simp only [nearestInBucket]
  rw [hN, ha]
  simp

theorem nearestInBucket_onlyBefore {B : List TradeEntry} {t tol : Int} {N : Nat}
    {b : TradeEntry} (hN : findFirstAtOrAfter B t = N) (ha : B.get? N = none)
    (h0 : 0 < N) (hb : B.get? (N - 1) = some b) :
    nearestInBucket B t tol = if |b.timestamp - t| ≤ tol then some b else none := by
  simp only [nearestInBucket]
  rw [hN, ha, if_pos h0, hb]

theorem nearestInBucket_empty {t tol : Int} : nearestInBucket [] t tol = none := rfl

/-- On a sorted bucket holding some entry within tolerance, the target-bucket
phase returns an entry of minimal distance among the whole bucket. -/
theorem nearestInBucket_min {B : List TradeEntry} {t tol : Int}
    (hs : List.Sorted tsLE B) (hex : ∃ x ∈ B, |x.timestamp - t| ≤ tol) :
    ∃ e, nearestInBucket B t tol = some e ∧ e ∈ B ∧ |e.timestamp - t| ≤ tol ∧
      ∀ x ∈ B, |e.timestamp - t| ≤ |x.timestamp - t| := by
  have hlb := IsLB_TW t hs
  have hTWle : TW B t ≤ B.length := hlb.1
  have hN := findFirstAtOrAfter_sorted t hs
  have hafter : ∀ (hNl : TW B t < B.length) (i : Fin B.length), TW B t ≤ i.1 →
      |(B.get ⟨TW B t, hNl⟩).timestamp - t| ≤ |(B.get i).timestamp - t| := by
    intro hNl i hNi
    have h1 : t ≤ (B.get ⟨TW B t, hNl⟩).timestamp := hlb.2.2 _ hNl le_rfl
    have h2 : (B.get ⟨TW B t, hNl⟩).timestamp ≤ (B.get i).timestamp :=
      sorted_get_le hs _ i.1 hNl i.2 hNi
    rw [abs_of_nonneg (by omega), abs_of_nonneg (by omega)]
    omega
  have hbefore : ∀ (h0 : 0 < TW B t) (hl : TW B t - 1 < B.length) (i : Fin B.length),
      i.1 < TW B t →
      |(B.get ⟨TW B t - 1, hl⟩).timestamp - t| ≤ |(B.get i).timestamp - t| := by
    intro h0 hl i hiN
    have h1 : (B.get ⟨TW B t - 1, hl⟩).timestamp < t := hlb.2.1 _ hl (by omega)
    have h2 : (B.get i).timestamp ≤ (B.get ⟨TW B t - 1, hl⟩).timestamp :=
      sorted_get_le hs i.1 _ i.2 hl (by omega)
    rw [abs_of_nonpos (by omega), abs_of_nonpos (by omega)]
    omega
  have hminall : ∀ e : TradeEntry,
      (∀ i : Fin B.length, |e.timestamp - t| ≤ |(B.get i).timestamp - t|) →
      ∀ x ∈ B, |e.timestamp - t| ≤ |x.timestamp - t| := by
    intro e he x hx
    obtain ⟨i, rfl⟩ := List.mem_iff_get.mp hx
    exact he i
  by_cases hNl : TW B t < B.length
  · have ha : B.get? (TW B t) = some (B.get ⟨TW B t, hNl⟩) := List.get?_eq_get hNl
    by_cases h0 : 0 < TW B t
    · have hl : TW B t - 1 < B.length := by omega
      have hb : B.get? (TW B t - 1) = some (B.get ⟨TW B t - 1, hl⟩) := List.get?_eq_get hl
      rw [nearestInBucket_both hN ha h0 hb]
      by_cases h1 : |(B.get ⟨TW B t - 1, hl⟩).timestamp - t| ≤ tol
      · by_cases h2 : |(B.get ⟨TW B t, hNl⟩).timestamp - t| ≤ tol
        · by_cases h3 : |(B.get ⟨TW B t - 1, hl⟩).timestamp - t| < |(B.get ⟨TW B t, hNl⟩).timestamp - t|
          · refine ⟨(B.get ⟨TW B t - 1, hl⟩), by simp only [List.get_eq_getElem] at h1 h2 h3; simp [h1, h2, h3], List.get_mem _ _ _, h1, hminall _ ?_⟩
            intro i
            by_cases hiN : i.1 < TW B t
            · exact hbefore h0 hl i hiN
            · exact le_trans (le_of_lt h3) (hafter hNl i (by omega))
          · refine ⟨(B.get ⟨TW B t, hNl⟩), by simp only [List.get_eq_getElem] at h1 h2 h3; simp [h1, h2, h3], List.get_mem _ _ _, h2, hminall _ ?_⟩
            intro i
            by_cases hiN : i.1 < TW B t
            · exact le_trans (by omega) (hbefore h0 hl i hiN)
            · exact hafter hNl i (by omega)
        · refine ⟨(B.get ⟨TW B t - 1, hl⟩), by simp only [List.get_eq_getElem] at h1 h2; simp [h1, h2], List.get_mem _ _ _, h1, hminall _ ?_⟩
          intro i
          by_cases hiN : i.1 < TW B t
          · exact hbefore h0 hl i hiN
          · exact le_trans (by omega) (hafter hNl i (by omega))
      · by_cases h2 : |(B.get ⟨TW B t, hNl⟩).timestamp - t| ≤ tol
        · refine ⟨(B.get ⟨TW B t, hNl⟩), by simp only [List.get_eq_getElem] at h1 h2; simp [h1, h2], List.get_mem _ _ _, h2, hminall _ ?_⟩
          intro i
          by_cases hiN : i.1 < TW B t
          · exact le_trans (by omega) (hbefore h0 hl i hiN)
          · exact hafter hNl i (by omega)
        · exfalso
          obtain ⟨x, hx, hxtol⟩ := hex
          obtain ⟨i, rfl⟩ := List.mem_iff_get.mp hx
          by_cases hiN : i.1 < TW B t
          · exact h1 (le_trans (hbefore h0 hl i hiN) hxtol)
          · exact h2 (le_trans (hafter hNl i (by omega)) hxtol)
    · have hN0 : TW B t = 0 := by omega
      have h0l : 0 < B.length := by omega
      have ha0 : B.get? 0 = some (B.get ⟨0, h0l⟩) := List.get?_eq_get h0l
      rw [nearestInBucket_onlyAfter (hN0 ▸ hN) ha0]
      have hmin : ∀ x ∈ B, |(B.get ⟨0, h0l⟩).timestamp - t| ≤ |x.timestamp - t| := by
        intro x hx
        obtain ⟨i, rfl⟩ := List.mem_iff_get.mp hx
        have h1 : t ≤ (B.get ⟨0, h0l⟩).timestamp := hlb.2.2 0 h0l (by omega)
        have h2 : (B.get ⟨0, h0l⟩).timestamp ≤ (B.get i).timestamp :=
          sorted_get_le hs 0 i.1 h0l i.2 (by omega)
        rw [abs_of_nonneg (by omega), abs_of_nonneg (by omega)]
        omega
      have h2 : |(B.get ⟨0, h0l⟩).timestamp - t| ≤ tol := by
        obtain ⟨x, hx, hxtol⟩ := hex
        exact le_trans (hmin x hx) hxtol
      exact ⟨_, by simp only [List.get_eq_getElem] at h2; simp [h2], List.get_mem _ _ _, h2, hmin⟩
  · have ha : B.get? (TW B t) = none := List.get?_eq_none.mpr (by omega)
    by_cases h0 : 0 < TW B t
    · have hl : TW B t - 1 < B.length := by omega
      have hb : B.get? (TW B t - 1) = some (B.get ⟨TW B t - 1, hl⟩) := List.get?_eq_get hl
      rw [nearestInBucket_onlyBefore hN ha h0 hb]
      have hmin : ∀ x ∈ B, |(B.get ⟨TW B t - 1, hl⟩).timestamp - t| ≤ |x.timestamp - t| := by
        intro x hx
        obtain ⟨i, rfl⟩ := List.mem_iff_get.mp hx
        exact hbefore h0 hl i (by omega)
      have h1 : |(B.get ⟨TW B t - 1, hl⟩).timestamp - t| ≤ tol := by
        obtain ⟨x, hx, hxtol⟩ := hex
        exact le_trans (hmin x hx) hxtol
      exact ⟨_, by simp only [List.get_eq_getElem] at h1; simp [h1], List.get_mem _ _ _, h1, hmin⟩
    · exfalso
      obtain ⟨x, hx, _⟩ := hex
      obtain ⟨i, rfl⟩ := List.mem_iff_get.mp hx
      have hi := i.2
      omega

/-- On a sorted bucket with nothing within tolerance the target-bucket phase
finds nothing. -/
theorem nearestInBucket_none {B : List TradeEntry} {t tol : Int}
    (hs : List.Sorted tsLE B) (hno : ∀ x ∈ B, ¬|x.timestamp - t| ≤ tol) :
    nearestInBucket B t tol = none := by
  have hN := findFirstAtOrAfter_sorted t hs
  have hlb := IsLB_TW t hs
  have hTWle : TW B t ≤ B.length := hlb.1
  by_cases hNl : TW B t < B.length
  · have ha : B.get? (TW B t) = some (B.get ⟨TW B t, hNl⟩) := List.get?_eq_get hNl
    have hatol : ¬|(B.get ⟨TW B t, hNl⟩).timestamp - t| ≤ tol := hno _ (List.get_mem _ _ _)
    by_cases h0 : 0 < TW B t
    · have hl : TW B t - 1 < B.length := by omega
      have hb : B.get? (TW B t - 1) = some (B.get ⟨TW B t - 1, hl⟩) := List.get?_eq_get hl
      have hbtol : ¬|(B.get ⟨TW B t - 1, hl⟩).timestamp - t| ≤ tol :=
        hno _ (List.get_mem _ _ _)
      rw [nearestInBucket_both hN ha h0 hb]
      simp only [List.get_eq_getElem] at hatol hbtol
      simp [hatol, hbtol]
    · have hN0 : TW B t = 0 := by omega
      have h0l : 0 < B.length := by omega
      have ha0 : B.get? 0 = some (B.get ⟨0, h0l⟩) := List.get?_eq_get h0l
      have hatol0 : ¬|(B.get ⟨0, h0l⟩).timestamp - t| ≤ tol := hno _ (List.get_mem _ _ _)
      rw [nearestInBucket_onlyAfter (hN0 ▸ hN) ha0]
      simp only [List.get_eq_getElem] at hatol0
      simp [hatol0]
  · have ha : B.get? (TW B t) = none := List.get?_eq_none.mpr (by omega)
    by_cases h0 : 0 < TW B t
    · have hl : TW B t - 1 < B.length := by omega
      have hb : B.get? (TW B t - 1) = some (B.get ⟨TW B t - 1, hl⟩) := List.get?_eq_get hl
      have hbtol : ¬|(B.get ⟨TW B t - 1, hl⟩).timestamp - t| ≤ tol :=
        hno _ (List.get_mem _ _ _)
      rw [nearestInBucket_onlyBefore hN ha h0 hb]
      simp only [List.get_eq_getElem] at hbtol
      simp [hbtol]
    · have hB : B = [] := by
        have hlen0 : B.length = 0 := by omega
        exact List.length_eq_zero.mp hlen0
      rw [hB]
      rfl

end TimeSeriesStore

/-!
The adjacent-bucket phase
-/

namespace TimeSeriesStore

theorem adjCandidates_nil (t : Int) : adjCandidates [] t = [] := rfl

theorem adjCandidates_all_lt {B : List TradeEntry} {t : Int} (hs : List.Sorted tsLE B)
    (hlen : 0 < B.length) (hlt : ∀ x ∈ B, x.timestamp < t) :
    adjCandidates B t = [B.get ⟨B.length - 1, by omega⟩] := by
  have hTW : TW B t = B.length := by
    unfold TW
    rw [List.takeWhile_eq_self_iff.mpr (by intro x hx; simpa using hlt x hx)]
  have hN : findFirstAtOrAfter B t = B.length := by
    rw [findFirstAtOrAfter_sorted t hs, hTW]
  simp only [adjCandidates]
  rw [hN, List.get?_eq_none.mpr le_rfl, if_pos hlen,
    List.get?_eq_get (show B.length - 1 < B.length by omega)]
  rfl

theorem adjCandidates_all_gt {B : List TradeEntry} {t : Int} (hs : List.Sorted tsLE B)
    (hlen : 0 < B.length) (hgt : ∀ x ∈ B, t < x.timestamp) :
    adjCandidates B t = [B.get ⟨0, hlen⟩] := by
  have hTW : TW B t = 0 := by
    unfold TW
    rw [List.takeWhile_eq_nil_iff.mpr ?_]
    · rfl
    · intro hl
      have := hgt _ (List.get_mem B 0 hl)
      simp only [decide_eq_true_eq]
      omega
  have hN : findFirstAtOrAfter B t = 0 := by
    rw [findFirstAtOrAfter_sorted t hs, hTW]
  simp only [adjCandidates]
  rw [hN, List.get?_eq_get hlen]
  rfl

theorem phase2Step_none (t tol : Int) (c : TradeEntry) :
    phase2Step t tol none c = if |c.timestamp - t| ≤ tol then some c else none := by
  unfold phase2Step
  by_cases h : |c.timestamp - t| ≤ tol <;> simp [h]

theorem phase2Step_some (t tol : Int) (e c : TradeEntry) :
    phase2Step t tol (some e) c =
      if |c.timestamp - t| ≤ tol ∧ |c.timestamp - t| < |e.timestamp - t| then some c
      else some e := by
  unfold phase2Step
  by_cases h1 : |c.timestamp - t| ≤ tol <;>
    by_cases h2 : |c.timestamp - t| < |e.timestamp - t| <;>
      simp [h1, h2]

theorem adjFold_bridge (s : TimeSeriesStore) (t tol : Int) (acc : Option TradeEntry)
    (j : Int) :
    (match s.buckets j with
     | none => acc
     | some adjBucket =>
       if adjBucket.length = 0 then acc
       else (adjCandidates adjBucket t).foldl (phase2Step t tol) acc) =
      (adjCandidates (bucketEntries s j) t).foldl (phase2Step t tol) acc := by
  cases hb : s.buckets j with
  | none => simp [bucketEntries, hb, adjCandidates_nil]
  | some adjBucket =>
    cases adjBucket with
    | nil => simp [bucketEntries, hb, adjCandidates_nil]
    | cons x xs => simp [bucketEntries, hb]

/-- Decomposition: `getNearest` split into the target-bucket phase and the two-bucket
adjacent phase, expressed over `bucketEntries`. -/
theorem getNearest_decomp (s : TimeSeriesStore) (t tol : Int) :
    getNearest s t tol =
      match nearestInBucket (bucketEntries s (getBucketKey t)) t tol with
      | some e => some e
      | none =>
        (adjCandidates (bucketEntries s (getBucketKey t + 1)) t).foldl (phase2Step t tol)
          ((adjCandidates (bucketEntries s (getBucketKey t - 1)) t).foldl
            (phase2Step t tol) none) := by
  simp only [getNearest]
  have hp1 : (match s.buckets (getBucketKey t) with
      | some bucket => if bucket.length > 0 then nearestInBucket bucket t tol else none
      | none => none) = nearestInBucket (bucketEntries s (getBucketKey t)) t tol := by
    cases hb : s.buckets (getBucketKey t) with
    | none => simp [bucketEntries, hb, nearestInBucket_empty]
    | some bucket =>
      cases bucket with
      | nil => simp [bucketEntries, hb, nearestInBucket_empty]
      | cons x xs => simp [bucketEntries, hb]
  rw [hp1]
  cases nearestInBucket (bucketEntries s (getBucketKey t)) t tol with
  | some e => rfl
  | none =>
    simp only [List.foldl_cons, List.foldl_nil]
    rw [adjFold_bridge s t tol none (getBucketKey t - 1),
      adjFold_bridge s t tol _ (getBucketKey t + 1)]

theorem adjacent_below (S : List TradeEntry) (t : Int) :
    ∀ x ∈ bucketEntries (buildStore S) (getBucketKey t - 1), x.timestamp < t := by
  intro x hx
  have hk := buildStore_bucket_key S _ x hx
  have hb1 := getBucketKey_bounds x.timestamp
  have hb2 := getBucketKey_bounds t
  rw [hk] at hb1
  have hring : (getBucketKey t - 1 + 1) * 60000 = getBucketKey t * 60000 := by ring
  omega

theorem adjacent_above (S : List TradeEntry) (t : Int) :
    ∀ x ∈ bucketEntries (buildStore S) (getBucketKey t + 1), t < x.timestamp := by
  intro x hx
  have hk := buildStore_bucket_key S _ x hx
  have hb1 := getBucketKey_bounds x.timestamp
  have hb2 := getBucketKey_bounds t
  rw [hk] at hb1
  omega

theorem last_min_dist {B : List TradeEntry} {t : Int} (hs : List.Sorted tsLE B)
    (hlen : 0 < B.length) (hlt : ∀ x ∈ B, x.timestamp < t) :
    ∀ x ∈ B, |(B.get ⟨B.length - 1, by omega⟩).timestamp - t| ≤ |x.timestamp - t| := by
  intro x hx
  obtain ⟨i, rfl⟩ := List.mem_iff_get.mp hx
  have h1 : (B.get i).timestamp ≤ (B.get ⟨B.length - 1, by omega⟩).timestamp :=
    sorted_get_le hs i.1 (B.length - 1) i.2 (by omega) (by have := i.2; omega)
  have h2 : (B.get ⟨B.length - 1, by omega⟩).timestamp < t :=
    hlt _ (List.get_mem _ _ _)
  have h3 : (B.get i).timestamp < t := hlt _ (List.get_mem _ _ _)
  rw [abs_of_nonpos (by omega), abs_of_nonpos (by omega)]
  omega

theorem head_min_dist {B : List TradeEntry} {t : Int} (hs : List.Sorted tsLE B)
    (hlen : 0 < B.length) (hgt : ∀ x ∈ B, t < x.timestamp) :
    ∀ x ∈ B, |(B.get ⟨0, hlen⟩).timestamp - t| ≤ |x.timestamp - t| := by
  intro x hx
  obtain ⟨i, rfl⟩ := List.mem_iff_get.mp hx
  have h1 : (B.get ⟨0, hlen⟩).timestamp ≤ (B.get i).timestamp :=
    sorted_get_le hs 0 i.1 hlen i.2 (by omega)
  have h2 : t < (B.get ⟨0, hlen⟩).timestamp := hgt _ (List.get_mem _ _ _)
  have h3 : t < (B.get i).timestamp := hgt _ (List.get_mem _ _ _)
  rw [abs_of_nonneg (by omega), abs_of_nonneg (by omega)]
  omega

end TimeSeriesStore

namespace TimeSeriesStore

/-- The adjacent phase over a bucket entirely below `t` and one entirely above:
when something is within tolerance, the result minimises distance over both
buckets (ties between the two candidates keep the entry of the earlier bucket). -/
theorem adjPhase_min {Bm Bp : List TradeEntry} {t tol : Int}
    (hsm : List.Sorted tsLE Bm) (hsp : List.Sorted tsLE Bp)
    (hmlt : ∀ x ∈ Bm, x.timestamp < t) (hpgt : ∀ x ∈ Bp, t < x.timestamp)
    (hex : ∃ x ∈ Bm ++ Bp, |x.timestamp - t| ≤ tol) :
    ∃ e, (adjCandidates Bp t).foldl (phase2Step t tol)
        ((adjCandidates Bm t).foldl (phase2Step t tol) none) = some e ∧
      e ∈ Bm ++ Bp ∧ |e.timestamp - t| ≤ tol ∧
      ∀ x ∈ Bm ++ Bp, |e.timestamp - t| ≤ |x.timestamp - t| := by
  by_cases hm0 : 0 < Bm.length
  · have hcm := adjCandidates_all_lt hsm hm0 hmlt
    have hlastmin := last_min_dist hsm hm0 hmlt
    have hlastmem : Bm.get ⟨Bm.length - 1, by omega⟩ ∈ Bm := List.get_mem _ _ _
    by_cases hp0 : 0 < Bp.length
    · have hcp := adjCandidates_all_gt hsp hp0 hpgt
      have hheadmin := head_min_dist hsp hp0 hpgt
      have hheadmem : Bp.get ⟨0, hp0⟩ ∈ Bp := List.get_mem _ _ _
      rw [hcm, hcp]
      simp only [List.foldl_cons, List.foldl_nil]
      rw [phase2Step_none]
      by_cases h1 : |(Bm.get ⟨Bm.length - 1, by omega⟩).timestamp - t| ≤ tol
      · rw [if_pos h1, phase2Step_some]
        by_cases h2 : |(Bp.get ⟨0, hp0⟩).timestamp - t| ≤ tol ∧
            |(Bp.get ⟨0, hp0⟩).timestamp - t| <
              |(Bm.get ⟨Bm.length - 1, by omega⟩).timestamp - t|
        · refine ⟨_, if_pos h2, List.mem_append.mpr (Or.inr hheadmem), h2.1, ?_⟩
          intro x hx
          rcases List.mem_append.mp hx with hxm | hxp
          · exact le_trans (le_of_lt h2.2) (hlastmin x hxm)
          · exact hheadmin x hxp
        · refine ⟨_, if_neg h2, List.mem_append.mpr (Or.inl hlastmem), h1, ?_⟩
          intro x hx
          rcases List.mem_append.mp hx with hxm | hxp
          · exact hlastmin x hxm
          · by_cases h3 : |(Bp.get ⟨0, hp0⟩).timestamp - t| ≤ tol
            · have h4 : ¬|(Bp.get ⟨0, hp0⟩).timestamp - t| <
                  |(Bm.get ⟨Bm.length - 1, by omega⟩).timestamp - t| := by
                intro hc
                exact h2 ⟨h3, hc⟩
              exact le_trans (by omega) (hheadmin x hxp)
            · have h5 := hheadmin x hxp
              omega
      · rw [if_neg h1, phase2Step_none]
        by_cases h2 : |(Bp.get ⟨0, hp0⟩).timestamp - t| ≤ tol
        · refine ⟨_, if_pos h2, List.mem_append.mpr (Or.inr hheadmem), h2, ?_⟩
          intro x hx
          rcases List.mem_append.mp hx with hxm | hxp
          · have h5 := hlastmin x hxm
            omega
          · exact hheadmin x hxp
        · exfalso
          obtain ⟨x, hx, hxtol⟩ := hex
          rcases List.mem_append.mp hx with hxm | hxp
          · exact h1 (le_trans (hlastmin x hxm) hxtol)
          · exact h2 (le_trans (hheadmin x hxp) hxtol)
    · have hBp : Bp = [] := by
        have : Bp.length = 0 := by omega
        exact List.length_eq_zero.mp this
      subst hBp
      rw [hcm, adjCandidates_nil]
      simp only [List.foldl_cons, List.foldl_nil]
      rw [phase2Step_none]
      by_cases h1 : |(Bm.get ⟨Bm.length - 1, by omega⟩).timestamp - t| ≤ tol
      · refine ⟨_, if_pos h1, List.mem_append.mpr (Or.inl hlastmem), h1, ?_⟩
        intro x hx
        rcases List.mem_append.mp hx with hxm | hxp
        · exact hlastmin x hxm
        · simp at hxp
      · exfalso
        obtain ⟨x, hx, hxtol⟩ := hex
        rcases List.mem_append.mp hx with hxm | hxp
        · exact h1 (le_trans (hlastmin x hxm) hxtol)
        · simp at hxp
  · have hBm : Bm = [] := by
      have : Bm.length = 0 := by omega
      exact List.length_eq_zero.mp this
    subst hBm
    rw [adjCandidates_nil]
    simp only [List.foldl_nil]
    by_cases hp0 : 0 < Bp.length
    · have hcp := adjCandidates_all_gt hsp hp0 hpgt
      have hheadmin := head_min_dist hsp hp0 hpgt
      have hheadmem : Bp.get ⟨0, hp0⟩ ∈ Bp := List.get_mem _ _ _
      rw [hcp]
      simp only [List.foldl_cons, List.foldl_nil]
      rw [phase2Step_none]
      by_cases h2 : |(Bp.get ⟨0, hp0⟩).timestamp - t| ≤ tol
      · refine ⟨_, if_pos h2, List.mem_append.mpr (Or.inr hheadmem), h2, ?_⟩
        intro x hx
        rcases List.mem_append.mp hx with hxm | hxp
        · simp at hxm
        · exact hheadmin x hxp
      · exfalso
        obtain ⟨x, hx, hxtol⟩ := hex
        rcases List.mem_append.mp hx with hxm | hxp
        · simp at hxm
        · exact h2 (le_trans (hheadmin x hxp) hxtol)
    · exfalso
      have hBp : Bp = [] := by
        have : Bp.length = 0 := by omega
        exact List.length_eq_zero.mp this
      subst hBp
      obtain ⟨x, hx, _⟩ := hex
      simp at hx

/-- The adjacent phase finds nothing when nothing is within tolerance. -/
theorem adjPhase_none {Bm Bp : List TradeEntry} {t tol : Int}
    (hsm : List.Sorted tsLE Bm) (hsp : List.Sorted tsLE Bp)
    (hmlt : ∀ x ∈ Bm, x.timestamp < t) (hpgt : ∀ x ∈ Bp, t < x.timestamp)
    (hno : ∀ x ∈ Bm ++ Bp, ¬|x.timestamp - t| ≤ tol) :
    (adjCandidates Bp t).foldl (phase2Step t tol)
      ((adjCandidates Bm t).foldl (phase2Step t tol) none) = none := by
  have hfold1 : (adjCandidates Bm t).foldl (phase2Step t tol) none = none := by
    by_cases hm0 : 0 < Bm.length
    · rw [adjCandidates_all_lt hsm hm0 hmlt]
      simp only [List.foldl_cons, List.foldl_nil]
      rw [phase2Step_none, if_neg (hno _ (List.mem_append.mpr (Or.inl (List.get_mem _ _ _))))]
    · have hBm : Bm = [] := by
        have : Bm.length = 0 := by omega
        exact List.length_eq_zero.mp this
      rw [hBm, adjCandidates_nil]
      rfl
  rw [hfold1]
  by_cases hp0 : 0 < Bp.length
  · rw [adjCandidates_all_gt hsp hp0 hpgt]
    simp only [List.foldl_cons, List.foldl_nil]
    rw [phase2Step_none, if_neg (hno _ (List.mem_append.mpr (Or.inr (List.get_mem _ _ _))))]
  · have hBp : Bp = [] := by
      have : Bp.length = 0 := by omega
      exact List.length_eq_zero.mp this
    rw [hBp, adjCandidates_nil]
    rfl

end TimeSeriesStore

/-!
Loader and consumer supporting lemmas
-/

namespace S3Ingester

theorem rowChecks_eq_validRowAmended (r : JVal) : rowChecks r = validRowAmended r := by
  unfold rowChecks validRowAmended typeofNumber typeofString sideIsBuyOrSell
  rcases propOf r ("timestamp") with _ | v1
  · rfl
  cases v1 with
  | num n1 =>
    rcases propOf r ("price") with _ | v2
    · rfl
    cases v2 with
    | num n2 =>
      rcases propOf r ("size") with _ | v3
      · rfl
      cases v3 with
      | num n3 =>
        rcases propOf r ("side") with _ | v4
        · rfl
        cases v4 with
        | str s4 =>
          rcases propOf r ("source") with _ | v5
          · simp
          cases v5 with
          | str s5 => simp
          | num n5 => simp
          | boolean b5 => simp
          | null => simp
          | arr xs5 => simp
          | obj fs5 => simp
        | num n4 => rfl
        | boolean b4 => rfl
        | null => rfl
        | arr xs4 => rfl
        | obj fs4 => rfl
      | str s3 => rfl
      | boolean b3 => rfl
      | null => rfl
      | arr xs3 => rfl
      | obj fs3 => rfl
    | str s2 => rfl
    | boolean b2 => rfl
    | null => rfl
    | arr xs2 => rfl
    | obj fs2 => rfl
  | str s1 => rfl
  | boolean b1 => rfl
  | null => rfl
  | arr xs1 => rfl
  | obj fs1 => rfl

theorem filterRows_ok (l : List JVal) (h : ∀ r ∈ l, isNull r = false) :
    filterRows l = Except.ok (l.filter rowChecks) := by
  induction l with
  | nil => rfl
  | cons r rest ih =>
    have hr : isNull r = false := h r (List.mem_cons_self r rest)
    have hrest : ∀ x ∈ rest, isNull x = false := fun x hx => h x (List.mem_cons_of_mem r hx)
    have hval : validateRow r = Except.ok (rowChecks r) := by
      unfold validateRow
      rw [hr]
      rfl
    rw [List.filter_cons]
    cases hc : rowChecks r with
    | true =>
      rw [show filterRows (r :: rest) =
          match validateRow r with
          | Except.error e => Except.error e
          | Except.ok true =>
            match filterRows rest with
            | Except.ok l2 => Except.ok (r :: l2)
            | Except.error e => Except.error e
          | Except.ok false => filterRows rest from rfl]
      rw [hval, hc, ih hrest]
      simp
    | false =>
      rw [show filterRows (r :: rest) =
          match validateRow r with
          | Except.error e => Except.error e
          | Except.ok true =>
            match filterRows rest with
            | Except.ok l2 => Except.ok (r :: l2)
            | Except.error e => Except.error e
          | Except.ok false => filterRows rest from rfl]
      rw [hval, hc, ih hrest]
      simp

end S3Ingester

/-!
Claim theorems
-/

open TimeSeriesStore

/-- C1 (code bug evaluated): after `insert` of a timestamp-59000 entry, a
subsequent `insertBatch` of a timestamp-1000 entry for the same bucket blindly
appends it (`bucket.push`), so bucket 0 ends as `[59000-entry, 1000-entry]` —
its timestamps are *not* non-decreasing, violating the bucket-order invariant
the claim states for every store reachable by insert/insertBatch/clear. -/
theorem claim_C1_insertBatch_breaks_bucket_order :
    ((insertBatch (insertS emptyStore (mkTrade 59000 Side.buy ("a")))
        [mkTrade 1000 Side.sell ("b")]).1).buckets 0 =
      some [mkTrade 59000 Side.buy ("a"), mkTrade 1000 Side.sell ("b")] ∧
    getBucketKey (mkTrade 59000 Side.buy ("a")).timestamp = 0 ∧
    getBucketKey (mkTrade 1000 Side.sell ("b")).timestamp = 0 ∧
    (mkTrade 1000 Side.sell ("b")).timestamp < (mkTrade 59000 Side.buy ("a")).timestamp := by
  decide

/-- C2 (counterexample): two inserts with equal timestamps are returned by
`getByTimeRange` in *reverse* insertion order — `insert` splices at the first
index whose timestamp is at or above the new one, i.e. before existing equal-timestamp
entries — refuting "ties in insertion order". -/
theorem claim_C2_counterexample :
    getByTimeRange (buildStore [mkTrade 5000 Side.buy ("a"), mkTrade 5000 Side.sell ("b")])
        { start := 0, «end» := 60000 } =
      [mkTrade 5000 Side.sell ("b"), mkTrade 5000 Side.buy ("a")] ∧
    mkTrade 5000 Side.buy ("a") ≠ mkTrade 5000 Side.sell ("b") := by
  decide

/-- C2 (amended): for every insert sequence and every range query,
`getByTimeRange` returns exactly the matching subsequence of the inserts in
timestamp order with ties in *reverse* insertion order (`refSorted`), filtered
by the half-open window and the optional source/side filters (an empty-string
source filter acts as unset), truncated to the first `limit` elements when a
*nonzero* limit is set (a zero limit is falsy in the source and means no
truncation). -/
theorem claim_C2_range_exact (S : List TradeEntry) (q : TimeRangeQueryOptions) :
    getByTimeRange (buildStore S) q =
      truthyTake q.limit ((refSorted S).filter (rangeMatch q)) :=
  getByTimeRange_buildStore S q

/-- C3 (counterexample): inserting a second entry with an equal timestamp
places it *before* the first one in the bucket, refuting "placed after all
existing equal-timestamp entries". -/
theorem claim_C3_counterexample :
    (buildStore [mkTrade 7000 Side.buy ("first"), mkTrade 7000 Side.sell ("second")]).buckets 0 =
      some [mkTrade 7000 Side.sell ("second"), mkTrade 7000 Side.buy ("first")] ∧
    mkTrade 7000 Side.buy ("first") ≠ mkTrade 7000 Side.sell ("second") := by
  decide

/-- C3 (amended): on any insert-built store, `insert` splices the new entry at
the first position whose timestamp is at or above its own — i.e. after all
strictly-smaller timestamps and *before* every existing equal-timestamp entry
(last-inserted-first for ties). -/
theorem claim_C3_insert_position (S : List TradeEntry) (e : TradeEntry) :
    (insertS (buildStore S) e).buckets (getBucketKey e.timestamp) =
      some ((bucketEntries (buildStore S) (getBucketKey e.timestamp)).takeWhile
              (fun b => decide (b.timestamp < e.timestamp)) ++
            e :: (bucketEntries (buildStore S) (getBucketKey e.timestamp)).dropWhile
              (fun b => decide (b.timestamp < e.timestamp))) :=
  insert_buildStore S e

/-- C4 (code bug evaluated): with three stored entries sharing timestamp 7000,
`findIndexAtTime` lands on the middle one and `getAtTime` only walks rightward,
returning two of the three entries — the claim requires all of them. -/
theorem claim_C4_getAtTime_misses_entries :
    (buildStore [mkTrade 7000 Side.buy ("a"), mkTrade 7000 Side.buy ("b"),
        mkTrade 7000 Side.buy ("c")]).buckets 0 =
      some [mkTrade 7000 Side.buy ("c"), mkTrade 7000 Side.buy ("b"), mkTrade 7000 Side.buy ("a")] ∧
    getAtTime (buildStore [mkTrade 7000 Side.buy ("a"), mkTrade 7000 Side.buy ("b"),
        mkTrade 7000 Side.buy ("c")]) 7000 =
      [mkTrade 7000 Side.buy ("b"), mkTrade 7000 Side.buy ("a")] := by
  decide

/-- C10 (confirmed): `insertBatch` of the empty sequence leaves the store
state completely unchanged — no bucket created, `totalCount`, `minTimestamp`,
`maxTimestamp` and all buckets untouched — while still emitting exactly one
batch event carrying the empty (sorted) sequence, which the bus broadcasts to
every batch subscriber. -/
theorem claim_C10_insertBatch_empty (s : TimeSeriesStore) :
    insertBatch s [] = (s, [StoreEvent.batch []]) := rfl

/-- C5 (counterexample): both stored entries are within the default tolerance
of t = 60000, but `getNearest` answers from the target bucket alone and
returns the entry at distance 59000 even though the bucket-0 entry at distance
1 is closer — refuting global minimality. -/
theorem claim_C5_counterexample :
    getNearest (buildStore [mkTrade 119000 Side.buy ("far"), mkTrade 59999 Side.buy ("near")])
        60000 60000 = some (mkTrade 119000 Side.buy ("far")) ∧
    |(mkTrade 59999 Side.buy ("near")).timestamp - 60000| ≤ 60000 ∧
    |(mkTrade 59999 Side.buy ("near")).timestamp - 60000| <
      |(mkTrade 119000 Side.buy ("far")).timestamp - 60000| := by
  decide

/-- C5 (amended): on an insert-built store, `getNearest` only ever examines
buckets `k-1`, `k`, `k+1` of `k = floor(t/60000)`, and the target bucket
shadows the adjacent ones: (1) if bucket `k` holds an entry within tolerance,
the result minimises distance among the entries of bucket `k` only; (2) otherwise,
if buckets `k±1` hold an entry within tolerance, the result minimises distance
among the entries of those two buckets; (3) otherwise the result is `none`, even
when entries within tolerance exist in farther buckets (possible when the
tolerance exceeds the 60000 ms bucket width). -/
theorem claim_C5_nearest_scope (S : List TradeEntry) (t tol : Int) :
    ((∃ x ∈ bucketEntries (buildStore S) (getBucketKey t), |x.timestamp - t| ≤ tol) →
      ∃ e, getNearest (buildStore S) t tol = some e ∧
        e ∈ bucketEntries (buildStore S) (getBucketKey t) ∧ |e.timestamp - t| ≤ tol ∧
        ∀ x ∈ bucketEntries (buildStore S) (getBucketKey t),
          |e.timestamp - t| ≤ |x.timestamp - t|) ∧
    ((∀ x ∈ bucketEntries (buildStore S) (getBucketKey t), ¬|x.timestamp - t| ≤ tol) →
     (∃ x ∈ bucketEntries (buildStore S) (getBucketKey t - 1) ++
            bucketEntries (buildStore S) (getBucketKey t + 1), |x.timestamp - t| ≤ tol) →
      ∃ e, getNearest (buildStore S) t tol = some e ∧
        e ∈ bucketEntries (buildStore S) (getBucketKey t - 1) ++
            bucketEntries (buildStore S) (getBucketKey t + 1) ∧ |e.timestamp - t| ≤ tol ∧
        ∀ x ∈ bucketEntries (buildStore S) (getBucketKey t - 1) ++
              bucketEntries (buildStore S) (getBucketKey t + 1),
          |e.timestamp - t| ≤ |x.timestamp - t|) ∧
    ((∀ x ∈ bucketEntries (buildStore S) (getBucketKey t - 1) ++
           (bucketEntries (buildStore S) (getBucketKey t) ++
            bucketEntries (buildStore S) (getBucketKey t + 1)), ¬|x.timestamp - t| ≤ tol) →
      getNearest (buildStore S) t tol = none) := by
  have hsB := buildStore_bucket_sorted S (getBucketKey t)
  have hsm := buildStore_bucket_sorted S (getBucketKey t - 1)
  have hsp := buildStore_bucket_sorted S (getBucketKey t + 1)
  have hmlt := adjacent_below S t
  have hpgt := adjacent_above S t
  refine ⟨?_, ?_, ?_⟩
  · intro hex
    obtain ⟨e, hnib, hmem, htol, hmin⟩ := nearestInBucket_min hsB hex
    refine ⟨e, ?_, hmem, htol, hmin⟩
    rw [getNearest_decomp, hnib]
  · intro hno hex
    have hnib := nearestInBucket_none hsB hno
    obtain ⟨e, hfold, hmem, htol, hmin⟩ := adjPhase_min hsm hsp hmlt hpgt hex
    refine ⟨e, ?_, hmem, htol, hmin⟩
    rw [getNearest_decomp, hnib]
    exact hfold
  · intro hno
    have hnoB : ∀ x ∈ bucketEntries (buildStore S) (getBucketKey t),
        ¬|x.timestamp - t| ≤ tol := by
      intro x hx
      exact hno x (List.mem_append.mpr (Or.inr (List.mem_append.mpr (Or.inl hx))))
    have hnoAdj : ∀ x ∈ bucketEntries (buildStore S) (getBucketKey t - 1) ++
        bucketEntries (buildStore S) (getBucketKey t + 1), ¬|x.timestamp - t| ≤ tol := by
      intro x hx
      rcases List.mem_append.mp hx with h | h
      · exact hno x (List.mem_append.mpr (Or.inl h))
      · exact hno x (List.mem_append.mpr (Or.inr (List.mem_append.mpr (Or.inr h))))
    rw [getNearest_decomp, nearestInBucket_none hsB hnoB]
    exact adjPhase_none hsm hsp hmlt hpgt hnoAdj

/-- C5 (witness): part (1) applied to a store holding one entry at timestamp
5000 with t = 6000, tol = 2000. -/
theorem claim_C5_witness :
    (∃ x ∈ bucketEntries (buildStore [mkTrade 5000 Side.buy ("w")]) (getBucketKey 6000),
      |x.timestamp - 6000| ≤ 2000) ∧
    (∃ e, getNearest (buildStore [mkTrade 5000 Side.buy ("w")]) 6000 2000 = some e ∧
      e ∈ bucketEntries (buildStore [mkTrade 5000 Side.buy ("w")]) (getBucketKey 6000) ∧
      |e.timestamp - 6000| ≤ 2000 ∧
      ∀ x ∈ bucketEntries (buildStore [mkTrade 5000 Side.buy ("w")]) (getBucketKey 6000),
        |e.timestamp - 6000| ≤ |x.timestamp - 6000|) :=
  ⟨by decide, (claim_C5_nearest_scope [mkTrade 5000 Side.buy ("w")] 6000 2000).1 (by decide)⟩

/-- C6 (counterexample): with equidistant candidates in buckets `k-1` and
`k+1` (target bucket empty), `getNearest` returns the *earlier* one — bucket
`k-1` is examined first and only strictly smaller distances overwrite —
refuting "the later (≥ t) candidate wins". -/
theorem claim_C6_counterexample :
    getNearest (buildStore [mkTrade 30000 Side.buy ("early"), mkTrade 150000 Side.buy ("late")])
        90000 60000 = some (mkTrade 30000 Side.buy ("early")) ∧
    (mkTrade 30000 Side.buy ("early")).timestamp < 90000 ∧
    |(mkTrade 30000 Side.buy ("early")).timestamp - 90000| =
      |(mkTrade 150000 Side.buy ("late")).timestamp - 90000| ∧
    bucketEntries (buildStore [mkTrade 30000 Side.buy ("early"), mkTrade 150000 Side.buy ("late")])
        (getBucketKey 90000 + 1) = [mkTrade 150000 Side.buy ("late")] := by
  decide

/-- C6 (amended): the tie rule is split by phase.  (A) When both surviving
candidates lie in the own bucket of t and are equidistant, the later (`≥ t`) one is
returned (the after-candidate is evaluated first and only strictly smaller
distances overwrite it).  (B) When the target bucket offers nothing within
tolerance and the equidistant candidates are the last entry of bucket `k-1`
and the first entry of bucket `k+1`, the *earlier* (`< t`, bucket `k-1`)
candidate is returned. -/
theorem claim_C6_tie_direction (S : List TradeEntry) (t tol : Int) (a b : TradeEntry) :
    (((bucketEntries (buildStore S) (getBucketKey t)).get?
        (findFirstAtOrAfter (bucketEntries (buildStore S) (getBucketKey t)) t) = some a →
      0 < findFirstAtOrAfter (bucketEntries (buildStore S) (getBucketKey t)) t →
      (bucketEntries (buildStore S) (getBucketKey t)).get?
        (findFirstAtOrAfter (bucketEntries (buildStore S) (getBucketKey t)) t - 1) = some b →
      |a.timestamp - t| ≤ tol →
      |b.timestamp - t| = |a.timestamp - t| →
      getNearest (buildStore S) t tol = some a ∧ t ≤ a.timestamp)) ∧
    ((∀ x ∈ bucketEntries (buildStore S) (getBucketKey t), ¬|x.timestamp - t| ≤ tol) →
      (bucketEntries (buildStore S) (getBucketKey t - 1)).getLast? = some a →
      (bucketEntries (buildStore S) (getBucketKey t + 1)).head? = some b →
      |a.timestamp - t| = |b.timestamp - t| →
      |a.timestamp - t| ≤ tol →
      getNearest (buildStore S) t tol = some a ∧ a.timestamp < t) := by
  have hsB := buildStore_bucket_sorted S (getBucketKey t)
  have hsm := buildStore_bucket_sorted S (getBucketKey t - 1)
  have hsp := buildStore_bucket_sorted S (getBucketKey t + 1)
  have hmlt := adjacent_below S t
  have hpgt := adjacent_above S t
  constructor
  · intro ha h0 hb htola heq
    have hnib := @nearestInBucket_both _ t tol _ a b rfl ha h0 hb
    have htolb : |b.timestamp - t| ≤ tol := by omega
    constructor
    · rw [getNearest_decomp, hnib, if_pos htolb, if_pos htola, if_neg (by omega)]
    · have hN := findFirstAtOrAfter_sorted t hsB
      have hlb := IsLB_TW t hsB
      rw [hN] at ha
      obtain ⟨hlt, hget⟩ := List.get?_eq_some.mp ha
      have := hlb.2.2 _ hlt le_rfl
      rw [hget] at this
      exact this
  · intro hno hlast hhead heq htol
    have hnib := nearestInBucket_none hsB hno
    have hmne : bucketEntries (buildStore S) (getBucketKey t - 1) ≠ [] := by
      intro hc
      rw [hc] at hlast
      exact Option.noConfusion hlast
    have hm0 : 0 < (bucketEntries (buildStore S) (getBucketKey t - 1)).length :=
      List.length_pos.mpr hmne
    have hpne : bucketEntries (buildStore S) (getBucketKey t + 1) ≠ [] := by
      intro hc
      rw [hc] at hhead
      exact Option.noConfusion hhead
    have hp0 : 0 < (bucketEntries (buildStore S) (getBucketKey t + 1)).length :=
      List.length_pos.mpr hpne
    have haeq : (bucketEntries (buildStore S) (getBucketKey t - 1)).get
        ⟨(bucketEntries (buildStore S) (getBucketKey t - 1)).length - 1, by omega⟩ = a := by
      rw [List.getLast?_eq_getLast _ hmne] at hlast
      have h2 := Option.some.inj hlast
      rw [List.get_eq_getElem, ← h2, List.getLast_eq_getElem]
    have hbeq : (bucketEntries (buildStore S) (getBucketKey t + 1)).get ⟨0, hp0⟩ = b := by
      have hg : (bucketEntries (buildStore S) (getBucketKey t + 1)).get? 0 = some b := by
        rw [List.get?_zero]
        exact hhead
      obtain ⟨h, hget⟩ := List.get?_eq_some.mp hg
      exact hget
    have hamem : a ∈ bucketEntries (buildStore S) (getBucketKey t - 1) := by
      rw [← haeq]
      exact List.get_mem _ _ _
    constructor
    · rw [getNearest_decomp, hnib, adjCandidates_all_lt hsm hm0 hmlt,
        adjCandidates_all_gt hsp hp0 hpgt]
      simp only [List.foldl_cons, List.foldl_nil]
      rw [haeq, hbeq, phase2Step_none, if_pos htol, phase2Step_some,
        if_neg (by rintro ⟨_, hc⟩; omega)]
    · have := hmlt a hamem
      omega

/-- C6 (witness): part (A) with two bucket-1 entries equidistant from
t = 90000 (the later, 100000, is returned); part (B) with equidistant entries
in buckets 0 and 2 (the earlier, 30000, is returned). -/
theorem claim_C6_witness :
    (getNearest (buildStore [mkTrade 80000 Side.buy ("p"), mkTrade 100000 Side.buy ("q")])
        90000 60000 = some (mkTrade 100000 Side.buy ("q")) ∧
      (90000 : Int) ≤ (mkTrade 100000 Side.buy ("q")).timestamp) ∧
    (getNearest (buildStore [mkTrade 30000 Side.buy ("e"), mkTrade 150000 Side.buy ("l")])
        90000 60000 = some (mkTrade 30000 Side.buy ("e")) ∧
      (mkTrade 30000 Side.buy ("e")).timestamp < 90000) :=
  ⟨(claim_C6_tie_direction [mkTrade 80000 Side.buy ("p"), mkTrade 100000 Side.buy ("q")]
      90000 60000 (mkTrade 100000 Side.buy ("q")) (mkTrade 80000 Side.buy ("p"))).1
      (by decide) (by decide) (by decide) (by decide) (by decide),
   (claim_C6_tie_direction [mkTrade 30000 Side.buy ("e"), mkTrade 150000 Side.buy ("l")]
      90000 60000 (mkTrade 30000 Side.buy ("e")) (mkTrade 150000 Side.buy ("l"))).2
      (by decide) (by decide) (by decide) (by decide) (by decide)⟩

/-- C7 (counterexample): `JSON.parse` turns an overflowing numeric literal
such as `1e999` into `Infinity`, and typeof classifies Infinity as number, so the
loader *keeps* a row whose `price` is a non-finite number — refuting "keeps a
row only if timestamp, price and size are finite". -/
theorem claim_C7_counterexample :
    S3Ingester.loadRows
        (JVal.arr [JVal.obj [("timestamp", JVal.num (JsNumber.val 0)),
                             ("price", JVal.num JsNumber.posInf),
                             ("size", JVal.num (JsNumber.val 1)),
                             ("side", JVal.str ("buy")),
                             ("source", JVal.str ("x"))]]) =
      Except.ok [JVal.obj [("timestamp", JVal.num (JsNumber.val 0)),
                           ("price", JVal.num JsNumber.posInf),
                           ("size", JVal.num (JsNumber.val 1)),
                           ("side", JVal.str ("buy")),
                           ("source", JVal.str ("x"))]] ∧
    S3Ingester.propOf
        (JVal.obj [("timestamp", JVal.num (JsNumber.val 0)),
                   ("price", JVal.num JsNumber.posInf),
                   ("size", JVal.num (JsNumber.val 1)),
                   ("side", JVal.str ("buy")),
                   ("source", JVal.str ("x"))]) "price" = some (JVal.num JsNumber.posInf) :=
  ⟨rfl, rfl⟩

/-- C7 (amended): for every parsed payload whose rows are all non-`null`, the
loader keeps a candidate row iff its `timestamp`, `price` and `size` are
numbers (finite *or* infinite — the `typeof` check does not reject the
infinities that overflowing JSON literals produce), its `side` is `"buy"` or
`"sell"`, and its `source` is a string; non-null rows failing validation are
dropped silently without aborting the file, and the surviving rows are
returned in payload order.  (A `null` row instead raises a `TypeError` that
aborts the whole file — the reason for the non-null hypothesis.) -/
theorem claim_C7_loader_validation (data : JVal)
    (h : ∀ r ∈ S3Ingester.rootRows data, S3Ingester.isNull r = false) :
    S3Ingester.loadRows data =
      Except.ok ((S3Ingester.rootRows data).filter S3Ingester.validRowAmended) := by
  unfold S3Ingester.loadRows
  rw [S3Ingester.filterRows_ok _ h]
  congr 1
  exact List.filter_congr fun r _ => S3Ingester.rowChecks_eq_validRowAmended r

/-- C7 (witness): a two-row payload (one row missing `price`, one valid row)
passes the non-null hypothesis and the loader keeps exactly the valid row. -/
theorem claim_C7_witness :
    (∀ r ∈ S3Ingester.rootRows
        (JVal.arr [JVal.obj [("timestamp", JVal.num (JsNumber.val 0)),
                             ("side", JVal.str ("buy"))],
                   JVal.obj [("timestamp", JVal.num (JsNumber.val 5)),
                             ("price", JVal.num (JsNumber.val 7)),
                             ("size", JVal.num (JsNumber.val 1)),
                             ("side", JVal.str ("sell")),
                             ("source", JVal.str ("x"))]]),
      S3Ingester.isNull r = false) ∧
    S3Ingester.loadRows
        (JVal.arr [JVal.obj [("timestamp", JVal.num (JsNumber.val 0)),
                             ("side", JVal.str ("buy"))],
                   JVal.obj [("timestamp", JVal.num (JsNumber.val 5)),
                             ("price", JVal.num (JsNumber.val 7)),
                             ("size", JVal.num (JsNumber.val 1)),
                             ("side", JVal.str ("sell")),
                             ("source", JVal.str ("x"))]]) =
      Except.ok [JVal.obj [("timestamp", JVal.num (JsNumber.val 5)),
                           ("price", JVal.num (JsNumber.val 7)),
                           ("size", JVal.num (JsNumber.val 1)),
                           ("side", JVal.str ("sell")),
                           ("source", JVal.str ("x"))]] :=
  ⟨by decide, (claim_C7_loader_validation _ (by decide)).trans rfl⟩

/-- C8 (counterexample): `loadInitialData` has *no* processed-set membership
test — a backfill pass over a listing containing an already-processed key
invokes the loader for it and batch-inserts its rows again. -/
theorem claim_C8_counterexample :
    "a.json" ∈ (⟨TimeSeriesStore.emptyStore, ["a.json"], []⟩ :
        S3Ingester.IngesterState).processedKeys ∧
    (S3Ingester.loadInitialData (fun _ => Except.ok [mkTrade 1000 Side.buy ("x")]) ["a.json"]
        ⟨TimeSeriesStore.emptyStore, ["a.json"], []⟩).1.loadedKeys = ["a.json"] ∧
    (S3Ingester.loadInitialData (fun _ => Except.ok [mkTrade 1000 Side.buy ("x")]) ["a.json"]
        ⟨TimeSeriesStore.emptyStore, ["a.json"], []⟩).1.store.totalCount = 1 ∧
    (S3Ingester.loadInitialData (fun _ => Except.ok [mkTrade 1000 Side.buy ("x")]) ["a.json"]
        ⟨TimeSeriesStore.emptyStore, ["a.json"], []⟩).2.filesProcessed = 1 :=
  ⟨by decide, rfl, rfl, rfl⟩

/-- C8 (amended): the dedup guard covers the two *incremental* discovery
paths only: an SQS-notification record key or a polling-pass key that is
already in the processed set causes zero loader invocations and zero store
mutations — the coordinator state is returned unchanged.  The backfill
(`loadInitialData`) path never consults the set (it only adds to it), so a
backfill re-listing of a processed key re-loads it. -/
theorem claim_C8_incremental_dedup
    (loadFile : String → Except String (List TradeEntry))
    (st : S3Ingester.IngesterState) (key : String) (h : key ∈ st.processedKeys) :
    S3Ingester.processSqsRecordKey loadFile st key = st ∧
    S3Ingester.pollKey loadFile st key = st := by
  constructor
  · unfold S3Ingester.processSqsRecordKey
    by_cases hj : S3Ingester.endsWithJson key <;> simp [hj, h]
  · unfold S3Ingester.pollKey
    by_cases hj : S3Ingester.endsWithJson key <;> simp [hj, h]

/-- C8 (witness): a processed key `"k.json"` is skipped by both incremental
paths. -/
theorem claim_C8_witness :
    "k.json" ∈ (⟨TimeSeriesStore.emptyStore, ["k.json"], []⟩ :
        S3Ingester.IngesterState).processedKeys ∧
    (S3Ingester.processSqsRecordKey (fun _ => Except.ok [])
        ⟨TimeSeriesStore.emptyStore, ["k.json"], []⟩ "k.json" =
      ⟨TimeSeriesStore.emptyStore, ["k.json"], []⟩ ∧
     S3Ingester.pollKey (fun _ => Except.ok [])
        ⟨TimeSeriesStore.emptyStore, ["k.json"], []⟩ "k.json" =
      ⟨TimeSeriesStore.emptyStore, ["k.json"], []⟩) :=
  ⟨by decide,
   claim_C8_incremental_dedup (fun _ => Except.ok [])
     ⟨TimeSeriesStore.emptyStore, ["k.json"], []⟩ "k.json" (by decide)⟩

/-- C9 (counterexample): `isNaN(Infinity)` is false, so the consumer guard
(a typeof-number test followed by `isNaN(t)`) lets both infinities through to the store
(which finds no bucket and returns empty/null) — refuting "rejects every
non-finite t". -/
theorem claim_C9_counterexample :
    DataConsumer.getAtTime TimeSeriesStore.emptyStore JsTime.posInf = Except.ok [] ∧
    DataConsumer.getNearest TimeSeriesStore.emptyStore JsTime.negInf none =
      Except.ok none :=
  ⟨rfl, rfl⟩

/-- C9 (amended): `getByTimeRange` throws iff `start ≥ end` and otherwise
delegates to the store unchanged (the store itself is never mutated by any of
these read paths); `getAtTime` and `getNearest` reject exactly `NaN` — the
infinities pass the `isNaN` guard and are delegated to the store, where no
bucket can match. -/
theorem claim_C9_consumer_validation (s : TimeSeriesStore) (t : JsTime)
    (tol : Option Int) (a b : Int) (source : Option String) (side : Option Side)
    (limit : Option Nat) :
    ((DataConsumer.getAtTime s t).isOk = !DataConsumer.isNaNjs t) ∧
    ((DataConsumer.getNearest s t tol).isOk = !DataConsumer.isNaNjs t) ∧
    ((DataConsumer.getByTimeRange s a b source side limit).isOk = !decide (a ≥ b)) ∧
    (a < b →
      DataConsumer.getByTimeRange s a b source side limit =
        Except.ok (TimeSeriesStore.getByTimeRange s
          { start := a, «end» := b, source := source, side := side, limit := limit })) := by
  refine ⟨?_, ?_, ?_, ?_⟩
  · cases t <;> rfl
  · cases t <;> rfl
  · by_cases hab : a ≥ b
    · unfold DataConsumer.getByTimeRange
      rw [if_pos hab, decide_eq_true hab]
      rfl
    · unfold DataConsumer.getByTimeRange
      rw [if_neg hab, decide_eq_false hab]
      rfl
  · intro h
    unfold DataConsumer.getByTimeRange
    rw [if_neg (by omega)]

/-- C9 (witness): the NaN rejection and the delegation for `0 < 1` on the
empty store. -/
theorem claim_C9_witness :
    ((DataConsumer.getAtTime TimeSeriesStore.emptyStore JsTime.nan).isOk = false) ∧
    ((0 : Int) < 1) ∧
    DataConsumer.getByTimeRange TimeSeriesStore.emptyStore 0 1 none none none =
      Except.ok [] :=
  ⟨((claim_C9_consumer_validation TimeSeriesStore.emptyStore JsTime.nan none 0 1
      none none none).1).trans rfl,
   by decide,
   ((claim_C9_consumer_validation TimeSeriesStore.emptyStore JsTime.nan none 0 1
      none none none).2.2.2 (by decide)).trans rfl⟩
